/-
Verification of the feature-structure / FST-cascade core of HornMorpho 2.5
(`l3/morpho/fs.py`, `semiring.py`, `casc.py`, `mtax.py`).

Shallow embedding notes:

* A Python `FeatStruct` is a dict from feature names (strings) to values
  (atomic values or nested `FeatStruct`s).  Python dict equality is
  extensional (order-insensitive), so a `FeatStruct` is embedded as a
  canonical key-sorted chain.  `UVal.top` is the empty structure (the
  constant `TOP` of `semiring.py`), `UVal.fcons k v r` the structure that
  maps `k` to `v` and continues as `r`, and `UVal.atom s` an atomic
  (string) value.  Atomic booleans/ints of the source are subsumed by
  string atoms; the `_types` set of type ancestors and reentrant (cyclic)
  structures are not modelled (none of the verified operations consult
  types, and `unify_dicts` has no cycle guard, so it only terminates on
  tree-shaped inputs anyway).
* The sentinel `'fail'` returned by `simple_unify` is a Python *string*,
  so it is embedded as `UVal.atom "fail"`; likewise the pseudo-value
  `'nil'` that `unify_dicts` uses as its absent-feature default is
  `UVal.atom "nil"`.
* `simple_unify`/`unify_dicts` recurse on both arguments at once, which
  Lean cannot compile structurally; they are defined with an explicit
  fuel parameter (`suN`/`mergeN`) and wrappers that supply sufficient
  fuel, so that all definitions compute by `decide`.
-/
import Mathlib

namespace HornMorpho


/-- Lexicographic strict order on char lists by code point, used (in place
of `String.lt`, which does not evaluate by kernel reduction) to fix the
canonical key order of the embedding's feature-structure chains.  Python
dicts are unordered, so any strict total order on keys yields a faithful
canonical representation. -/
def clLt : List Char → List Char → Bool
  | [], [] => false
  | [], _ :: _ => true
  | _ :: _, [] => false
  | a :: as, b :: bs =>
      if a.toNat < b.toNat then true
      else if b.toNat < a.toNat then false
      else clLt as bs

/-- Strict total order on strings by code points (Python's own string
order), used for the canonical chain encoding. -/
def strLt (a b : String) : Bool := clLt a.toList b.toList

/-- A Python value appearing in a feature structure: an atomic (string)
value, the empty feature structure `TOP`, or a feature-structure chain
cell mapping key `k` to value `v` with remainder `r`.  A feature
structure (Python dict) is canonically represented as a strictly
key-sorted chain of `fcons` cells ending in `top`. -/

inductive UVal : Type where
  | atom : String → UVal
  | top : UVal
  | fcons : String → UVal → UVal → UVal
deriving DecidableEq, Repr

namespace UVal

/-- The `'fail'` sentinel returned by `simple_unify` (a Python string). -/
def UFAIL : UVal := .atom "fail"

/-- The `'nil'` default that `unify_dicts` uses to detect absent features
(also an ordinary Python string, hence representable as a value). -/
def UNIL : UVal := .atom "nil"

/-- Python `isinstance(x, FeatStruct)`: `top` and `fcons` cells are feature
structures, atoms are not. -/
def isFS : UVal → Bool
  | .atom _ => false
  | .top => true
  | .fcons _ _ _ => true

/-- Size measure used to supply sufficient fuel to `suN`/`mergeN`. -/
def usize : UVal → Nat
  | .atom _ => 1
  | .top => 1
  | .fcons _ v r => 1 + usize v + usize r

/-- First key of a feature-structure chain (for the sortedness invariant). -/
def firstKey : UVal → Option String
  | .fcons k _ _ => some k
  | _ => none

/-- Well-formed canonical encodings: chains are strictly key-sorted, tails
are themselves chains, and nested values are well-formed.  Exactly the
images of finite tree-shaped Python `FeatStruct`s. -/
def wfU : UVal → Bool
  | .atom _ => true
  | .top => true
  | .fcons k v r =>
      wfU v && wfU r && isFS r &&
      (match firstKey r with
       | none => true
       | some k' => strLt k k')

/-- Dict lookup on a feature-structure chain (`x.get(k)`). -/
def alookup : UVal → String → Option UVal
  | .fcons k v r, key => if key = k then some v else alookup r key
  | _, _ => none

end UVal

open UVal

/-- One-step body of `fs.simple_unify` (fs.py:1468-1479): "If they're the
same, return one.  If both are dicts, call unify_dict.  Otherwise fail."
The dict case is supplied by the caller, so that `mergeN` can use this
body without mutual recursion. -/
def suStep (x y : UVal) (dicts : Option UVal) : UVal :=
  if x = y then x
  else if x.isFS && y.isFS then
    match dicts with
    | some r => r
    | none => UFAIL
  else UFAIL

/-- Fuel-indexed embedding of `fs.unify_dicts` (fs.py:1481-1503), acting
on two feature-structure chains; `none` is the `'fail'` outcome.  The
source iterates over the union of the key sets with per-key defaults
`x.get(k, 'nil')` / `y.get(k, 'nil')`, so a feature whose stored value
*is* the string `'nil'` behaves exactly like an absent feature; the
merge below reproduces that: a `'nil'` value on one side is dropped or
overridden, and the pair of `'nil'` values is dropped.  When both sides
define a non-`'nil'` value the recursive `simple_unify` of the two
values (its body `suStep` inlined here, to keep the recursion on the
fuel alone) is stored, and a per-key result equal to the string `'fail'`
aborts the whole merge.  With fuel `≥ usize x + usize y` the fuel never
runs out (`mergeN_stable`).  `mergeBody` is the single recursion layer,
abstracted over the recursive call so proofs can unfold one layer at a
time; `mergeN` ties the knot over the fuel. -/
def mergeBody (rec : UVal → UVal → Option UVal) : UVal → UVal → Option UVal
  | .top, .top => some .top
  | .fcons k v r, .top =>
      if v = UNIL then rec r .top
      else (rec r .top).map (.fcons k v ·)
  | .top, .fcons k v r =>
      if v = UNIL then rec .top r
      else (rec .top r).map (.fcons k v ·)
  | .fcons k1 v1 r1, .fcons k2 v2 r2 =>
      if strLt k1 k2 then
        (if v1 = UNIL then rec r1 (.fcons k2 v2 r2)
         else (rec r1 (.fcons k2 v2 r2)).map (.fcons k1 v1 ·))
      else if strLt k2 k1 then
        (if v2 = UNIL then rec (.fcons k1 v1 r1) r2
         else (rec (.fcons k1 v1 r1) r2).map (.fcons k2 v2 ·))
      else
        if v1 = UNIL then
          (if v2 = UNIL then rec r1 r2
           else (rec r1 r2).map (.fcons k1 v2 ·))
        else if v2 = UNIL then (rec r1 r2).map (.fcons k1 v1 ·)
        else
          let u := suStep v1 v2 (rec v1 v2)
          if u = UFAIL then none
          else (rec r1 r2).map (.fcons k1 u ·)
  | _, _ => none

/-- The fuel-indexed merge itself: one `mergeBody` layer per unit of fuel. -/
def mergeN : Nat → UVal → UVal → Option UVal
  | 0, _, _ => none
  | n + 1, x, y => mergeBody (mergeN n) x y

/-- Source `fs.simple_unify`: its body applied at canonical (always sufficient)
fuel for the dict case. -/
def simple_unify (x y : UVal) : UVal :=
  suStep x y (mergeN (usize x + usize y) x y)

/-- Source `fs.unify_dicts` at canonical fuel, wrapped back into a value
(`'fail'` for the failed merge), as the source returns it. -/
def unify_dicts (x y : UVal) : UVal :=
  match mergeN (usize x + usize y) x y with
  | some r => r
  | none => UFAIL

/-- Strip the `'nil'` pseudo-value: `unify_dicts` treats a stored `'nil'`
exactly like an absent feature. -/
def denil : Option UVal → Option UVal
  | some v => if v = UNIL then none else some v
  | none => none

/-- The per-feature result table asserted by the specification for
`unify` (claim C1): "for every feature name present in either operand,
if both define it, recursively unify; if only one defines it, copy that
value" — written from the spec's words for comparison with the
source-derived `unify_dicts`, and amended with the source's `'nil'`
convention (a feature whose stored value is the string `'nil'` counts as
absent on either side). -/
def specUnifyAt (a b : Option UVal) : Option UVal :=
  match denil a, denil b with
  | some vx, some vy => some (simple_unify vx vy)
  | some vx, none => some vx
  | none, some vy => some vy
  | none, none => none

/-- Operands of the spec's worked unification scenario:
`[tense=past, subj=[num=sg]]`. -/
def scenTenseA : UVal :=
  .fcons "subj" (.fcons "num" (.atom "sg") .top)
    (.fcons "tense" (.atom "past") .top)

/-- Scenario operand `[tense=past, subj=[gen=fem]]`. -/
def scenTenseB : UVal :=
  .fcons "subj" (.fcons "gen" (.atom "fem") .top)
    (.fcons "tense" (.atom "past") .top)

/-- Scenario result `[tense=past, subj=[num=sg, gen=fem]]`. -/
def scenTenseAB : UVal :=
  .fcons "subj" (.fcons "gen" (.atom "fem") (.fcons "num" (.atom "sg") .top))
    (.fcons "tense" (.atom "past") .top)

/-- The structure `[x='nil']`, whose single feature stores the reserved
string `'nil'`. -/
def nilCexA : UVal := .fcons "x" (.atom "nil") .top

/-!  ## FSSet: sets of frozen feature structures (semiring.py)

A Python `FSSet` is a `set` of frozen `FeatStruct`s.  It is embedded as
a duplicate-free Lean list (the iteration sequence of the set); set
construction is modelled by `List.dedup`, and set-level claims are
stated up to membership where the iteration order is not determined by
the source.  Freezing is semantically a no-op here (immutability is
intrinsic in Lean).  -/

/-- Source `TOP` (semiring.py:227): the empty frozen feature structure. -/
def TOPfs : UVal := UVal.top

/-- Source `TOPFSS` (semiring.py:229): the singleton set `{TOP}`. -/
def TOPFSS : List UVal := [TOPfs]

/-- Source `UNIFICATION_SR.zero` (semiring.py:290): the empty set. -/
def uniZero : List UVal := []

/-- Source `UNIFICATION_SR.one` (semiring.py:290): `TOPFSS`. -/
def uniOne : List UVal := TOPFSS

/-- Modelled from the spec: `every(pred, seq)` comes from
`l3/morpho/utils.py`, which is not among the sources; per the spec's
reading of `FSSet.unify` — "if every pairwise unification can be reduced
to TOP" — it is universal quantification over the sequence. -/
def every {α : Type} (p : α → Bool) (l : List α) : Bool := l.all p

/-- The cross-product unification list
`[simple_unify(f1, f2) for f1 in self for f2 in fs2]`
(semiring.py:95). -/
def crossUnify (x y : List UVal) : List UVal :=
  (x.map (fun f1 => y.map (fun f2 => simple_unify f1 f2))).flatten

/-- Source `FSSet.unify` (semiring.py:94-101): build the cross-product
unifications; if every result equals `TOP`, return `TOPFSS`; otherwise
keep the non-`'fail'` results as a new set (`FSSet(*filter(...))`,
modelled as filter plus dedup). -/
def fssUnify (x y : List UVal) : List UVal :=
  let result1 := crossUnify x y
  if every (fun u => decide (u = TOPfs)) result1 then TOPFSS
  else (result1.filter (fun u => decide (u ≠ UFAIL))).dedup

/-- No feature of the chain's top level stores the string `'nil'`
(under which `TOPFSS` would not act as an identity). -/
def noTopNil : UVal → Bool
  | .fcons _ v r => decide (v ≠ UNIL) && noTopNil r
  | _ => true

/-!  ## FeatStruct object layer: freezing, copying, mutation (fs.py)

For claims C5/C6 the Python-object aspects matter: the `_frozen` flag
and object identity.  `PyFS` pairs the value contents with the frozen
flag of the root object (freezing recurses into nested structures in the
source, fs.py:645-651; the claims only consult the root flag — every
mutator checks `self._frozen` — so nested flags are elided).  Mutators
return the possibly-raised exception together with the post-state of the
receiver; path (tuple) arguments of the source's mutators are not
modelled, only plain feature names, which is the only part the frozen
checks interact with. -/

/-- A Python exception value. -/
inductive PyErr : Type where
  | valueError : String → PyErr
  | keyError : String → PyErr
  | typeError : String → PyErr
deriving DecidableEq, Repr

/-- Source `FeatStruct._FROZEN_ERROR` (fs.py:624). -/
def FROZEN_ERROR : String := "Frozen FeatStructs may not be modified"

/-- A `FeatStruct` object: contents plus the root `_frozen` flag. -/
structure PyFS : Type where
  feats : UVal
  frozen : Bool
deriving DecidableEq, Repr

/-- Dict assignment on the canonical chain (replace, or insert in key
order — Python dicts are order-insensitive under `==`). -/
def fsInsert : UVal → String → UVal → UVal
  | .top, k, v => .fcons k v .top
  | .fcons k' v' r, k, v =>
      if k = k' then .fcons k' v r
      else if strLt k k' then .fcons k v (.fcons k' v' r)
      else .fcons k' v' (fsInsert r k v)
  | .atom a, _, _ => .atom a

/-- Dict deletion on the canonical chain. -/
def fsDelete : UVal → String → UVal
  | .fcons k' v' r, k => if k = k' then r else .fcons k' v' (fsDelete r k)
  | x, _ => x

/-- Source `FeatStruct.__setitem__` (fs.py:419-432): raises the frozen error
when frozen (leaving the features untouched), else stores the value. -/
def fs_setitem (x : PyFS) (k : String) (v : UVal) : Option PyErr × PyFS :=
  if x.frozen then (some (.valueError FROZEN_ERROR), x)
  else (none, ⟨fsInsert x.feats k v, false⟩)

/-- Source `FeatStruct.__delitem__` (fs.py:407-417): frozen error when frozen;
`KeyError` when the name is absent; else deletes. -/
def fs_delitem (x : PyFS) (k : String) : Option PyErr × PyFS :=
  if x.frozen then (some (.valueError FROZEN_ERROR), x)
  else if (alookup x.feats k).isSome then (none, ⟨fsDelete x.feats k, false⟩)
  else (some (.keyError k), x)

/-- Source `FeatStruct.clear` (fs.py:434-437). -/
def fs_clear (x : PyFS) : Option PyErr × PyFS :=
  if x.frozen then (some (.valueError FROZEN_ERROR), x)
  else (none, ⟨.top, false⟩)

/-- Source `FeatStruct.update` (fs.py:439-470), for a list of (string) name /
value pairs: frozen error when frozen, else assigns each in turn. -/
def fs_update (x : PyFS) (items : List (String × UVal)) :
    Option PyErr × PyFS :=
  if x.frozen then (some (.valueError FROZEN_ERROR), x)
  else (none, ⟨items.foldl (fun acc kv => fsInsert acc kv.1 kv.2) x.feats,
    false⟩)

/-- Source `FeatStruct.copy(deep=True)` (fs.py:664-682): a fresh object, not
frozen, with (deep-copied, hence equal) contents. -/
def fs_copy (x : PyFS) : PyFS := ⟨x.feats, false⟩

/-- The result of `FeatStruct.unfreeze` (fs.py:653-658), keeping track of
object identity: either the receiver itself (`sameObject`) or a fresh
copy. -/
inductive UnfreezeRes : Type where
  | sameObject : UnfreezeRes
  | newCopy : PyFS → UnfreezeRes
deriving DecidableEq, Repr

/-- Source `FeatStruct.unfreeze` (fs.py:653-658): "Return an unfrozen copy of
the FS if frozen; otherwise self." -/
def fs_unfreeze (x : PyFS) : UnfreezeRes :=
  if x.frozen then .newCopy (fs_copy x) else .sameObject

/-!  ## Cascade loader (casc.py) and morphotactics (mtax.py)

The two parsers are line-oriented, classifying each line against a fixed
ordered battery of anchored Python regexes (`re.match`).  Each regex is
small enough to implement directly over char lists, reproducing the
greedy/lazy backtracking of the original pattern (noted per matcher).
File contents are lists of line strings (the sources `split` on
newline). -/

/-- Python's `\s` character class (`str.strip` whitespace). -/
def pyWs (c : Char) : Bool :=
  c = ' ' || c = '\t' || c = '\n' || c = '\r' || c = '\x0b' || c = '\x0c'

/-- Python `line.split('#')[0]`: the prefix before the first `#`. -/
def takeUntilHash (l : List Char) : List Char := l.takeWhile (· ≠ '#')

/-- Python `str.lstrip()`. -/
def pyLstrip (l : List Char) : List Char := l.dropWhile pyWs

/-- Python `str.rstrip()`. -/
def pyRstrip (l : List Char) : List Char :=
  (l.reverse.dropWhile pyWs).reverse

/-- Python `str.strip()`. -/
def pyStrip (l : List Char) : List Char := pyRstrip (pyLstrip l)

/-- Python `str.lower()` (ASCII, as used for weighting names). -/
def pyLower (l : List Char) : List Char := l.map Char.toLower

/-- Python `needle in haystack` on strings. -/
def containsSub (needle hay : List Char) : Bool :=
  decide (needle <:+: hay)

/-- Python `str.split(sep)` for a one-character separator (returns `[[]]` on the
empty string, like Python). -/
def splitOnChar (c : Char) : List Char → List (List Char)
  | [] => [[]]
  | d :: rest =>
      let r := splitOnChar c rest
      if d = c then [] :: r
      else (d :: r.head!) :: r.tail

/-- Python `int(s)` for a stripped literal: optional sign then at least one
digit; `none` models the `ValueError` of a malformed literal. -/
def pyParseInt (l : List Char) : Option Int :=
  let digits : List Char → Option Int := fun ds =>
    if ds = [] then none
    else if ds.all (·.isDigit) then
      some (ds.foldl (fun acc d => acc * 10 + (d.toNat - 48 : Int)) 0)
    else none
  match l with
  | '-' :: ds => (digits ds).map (- ·)
  | '+' :: ds => digits ds
  | ds => digits ds

/-- Python `[int(i.strip()) for i in indices.split(',')]` (casc.py:349). -/
def parseIndices (l : List Char) : Option (List Int) :=
  (splitOnChar ',' l).mapM (fun p => pyParseInt (pyStrip p))

/-- Regex `WEIGHTING_RE = weighting\s*=\s*(.*)` under `re.match`: the literal
prefix, optional spaces, `=`, optional spaces; the group is the rest. -/
def matchWeighting (l : List Char) : Option (List Char) :=
  if "weighting".toList.isPrefixOf l then
    match (l.drop 9).dropWhile pyWs with
    | '=' :: rest => some (rest.dropWhile pyWs)
    | _ => none
  else none

/-- The `\s*=\s*\{(.*)\}` tail shared by the string-set and subcascade
regexes: skip spaces, `=`, spaces, `{`, then the greedy group runs to
the *last* `}` (nothing is anchored after it). -/
def bracesAfterEq (l : List Char) : Option (List Char) :=
  match l.dropWhile pyWs with
  | '=' :: rest =>
      match (rest.dropWhile pyWs) with
      | '{' :: inner =>
          let tailRev := inner.reverse.dropWhile (· ≠ '}')
          match tailRev with
          | '}' :: contentRev => some contentRev.reverse
          | _ => none
      | _ => none
  | _ => none

/-- Backtracking for a greedy `(\S+)` followed by `\s*=\s*\{(.*)\}`:
try the longest label first, then shorter ones (the label is carried
reversed). -/
def labelEqBraces : List Char → List Char → Option (List Char × List Char)
  | [], _ => none
  | c :: labRev, rest =>
      match bracesAfterEq rest with
      | some content => some ((c :: labRev).reverse, content)
      | none => labelEqBraces labRev (c :: rest)

/-- Regex `SS_RE = (\S+)\s*=\s*\{(.*)\}` under `re.match`. -/
def matchSS (l : List Char) : Option (List Char × List Char) :=
  let run := l.takeWhile (fun c => !pyWs c)
  if run = [] then none
  else labelEqBraces run.reverse (l.drop run.length)

/-- Regex `SUBCASC_RE = cascade\s*(\S+)\s*=\s*\{(.*)\}` under `re.match`. -/
def matchSubcasc (l : List Char) : Option (List Char × List Char) :=
  if "cascade".toList.isPrefixOf l then
    let r := (l.drop 7).dropWhile pyWs
    let run := r.takeWhile (fun c => !pyWs c)
    if run = [] then none
    else labelEqBraces run.reverse (r.drop run.length)
  else none

/-- Regex `CASC_FST_RE = >(.*?)<` under `re.match`: a leading `>`, then the
lazy group up to the first `<`. -/
def matchFst (l : List Char) : Option (List Char) :=
  match l with
  | '>' :: rest =>
      let content := rest.takeWhile (· ≠ '<')
      if content.length < rest.length then some content else none
  | _ => none

/-- Regex `CASC_LEX_RE = \+(.*?)\+` under `re.match`: a leading `+`, then the
lazy group up to the next `+`. -/
def matchLex (l : List Char) : Option (List Char) :=
  match l with
  | '+' :: rest =>
      let content := rest.takeWhile (· ≠ '+')
      if content.length < rest.length then some content else none
  | _ => none

/-- The three semirings a cascade can select (semiring.py). -/
inductive SR : Type where
  | unification : SR
  | probability : SR
  | tropical : SR
deriving DecidableEq, Repr

/-- An element of the cascade list: a loaded FST or the placeholder
string left by lazy skipping.  `net fn` marks the result of
`FST.load(fn, ...)`; `fst.py` is not among the sources, so the loaded
network itself is opaque here — the claims only distinguish loaded
networks from placeholders. -/
inductive CascEntry : Type where
  | net : String → CascEntry
  | placeholder : String → CascEntry
deriving DecidableEq, Repr

/-- Dict assignment for string-keyed association lists (Python dicts keep
insertion order; replacement is in place, new keys append). -/
def aupdate {α : Type} (m : List (String × α)) (k : String) (v : α) :
    List (String × α) :=
  if (m.lookup k).isSome then
    m.map (fun p => if p.1 = k then (k, v) else p)
  else m ++ [(k, v)]

/-- The parse-time/compose-time state of an `FSTCascade` object: label,
selected weighting, named string sets, named subcascade index lists, the
subcascade indices活 that are active for lazy loading
(`subcasc_indices`), and the cascade list itself. -/
structure CascState : Type where
  label : String
  weighting : SR
  stringsets : List (String × List String)
  cascades : List (String × List Int)
  subcascIndices : List Int
  fsts : List CascEntry
deriving DecidableEq, Repr

/-- Source `FSTCascade.set_weighting` (casc.py:283-291): lowercase the label,
pick the semiring whose tag occurs in it, else leave it unchanged. -/
def setWeighting (st : CascState) (lab : List Char) : CascState :=
  let l := pyLower lab
  if containsSub "uni".toList l then {st with weighting := .unification}
  else if containsSub "prob".toList l then {st with weighting := .probability}
  else if containsSub "trop".toList l then {st with weighting := .tropical}
  else st

/-- Parameters of `FSTCascade.parse` relevant to the claims. -/
structure CascParams : Type where
  subcasc : Option String
  createNetworks : Bool
deriving DecidableEq, Repr

/-- Append a component for a `>label<` / `+label+` line (casc.py:366-402):
when networks are being created, load the FST unless a subcascade
selection is active and the current position is outside it, in which
case append the placeholder string `'FST' + str(len(cascade))`. -/
def addFstEntry (p : CascParams) (st : CascState) (filename : String) :
    CascState :=
  if p.createNetworks then
    {st with fsts := st.fsts ++
      [if st.subcascIndices = [] ∨ (st.fsts.length : Int) ∈ st.subcascIndices
       then CascEntry.net filename
       else CascEntry.placeholder ("FST" ++ toString st.fsts.length)]}
  else st

/-- Message `"bad line: %r" % line` (with `repr`'s quoting modelled as plain
single quotes). -/
def badLineMsg (l : List Char) : String :=
  String.mk ("bad line: '".toList ++ l ++ ['\''])

/-- One iteration of the `FSTCascade.parse` line loop (casc.py:330-403):
strip comments and whitespace, skip blank lines, then try the five line
forms in source order; a line matching none of them raises
`ValueError("bad line: %r" % line)` (modelled with plain quotes in place
of `repr`'s escaping). -/
def cascLine (p : CascParams) (st : CascState) (raw : String) :
    Except String CascState :=
  let line := pyStrip (takeUntilHash raw.toList)
  if line = [] then .ok st
  else match matchWeighting line with
  | some g => .ok (setWeighting st g)
  | none =>
  match matchSubcasc line with
  | some (lab, inds) =>
      match parseIndices inds with
      | none => .error "invalid literal for int() with base 10"
      | some idxs =>
          let st1 := {st with
            cascades := aupdate st.cascades (String.mk lab) idxs}
          .ok (if p.subcasc = some (String.mk lab)
               then {st1 with subcascIndices := idxs} else st1)
  | none =>
  match matchSS line with
  | some (lab, strs) =>
      let sts := (splitOnChar ',' strs).map (fun q => String.mk (pyStrip q))
      .ok {st with stringsets := aupdate st.stringsets (String.mk lab) sts}
  | none =>
  match matchFst line with
  | some lab => .ok (addFstEntry p st (String.mk lab ++ ".fst"))
  | none =>
  match matchLex line with
  | some lab => .ok (addFstEntry p st (String.mk lab ++ ".lex"))
  | none => .error (badLineMsg line)

/-- The `while lines:` loop of `FSTCascade.parse`: process lines in
order; a raised error aborts the parse of the file. -/
def cascParse (p : CascParams) : CascState → List String →
    Except String CascState
  | st, [] => .ok st
  | st, l :: ls =>
      match cascLine p st l with
      | .error e => .error e
      | .ok st1 => cascParse p st1 ls

/-- Python indexing `l[i]` with negative-index wraparound; `none` models
`IndexError`. -/
def pyGet {α : Type} (l : List α) (i : Int) : Option α :=
  if 0 ≤ i then l.get? i.toNat
  else
    let j := (l.length : Int) + i
    if 0 ≤ j then l.get? j.toNat else none

/-- Python slicing `l[b:e]` with clamping and negative indices. -/
def pySlice {α : Type} (l : List α) (b e : Int) : List α :=
  let n := (l.length : Int)
  let bn := if b < 0 then max 0 (n + b) else min b n
  let en := if e < 0 then max 0 (n + e) else min e n
  ((l.drop bn.toNat).take (en - bn).toNat)

/-- The result of `FSTCascade.compose` (casc.py:109-126): either the
single cascade element returned unchanged, the (opaque, since fst.py is
not among the sources) `FST.compose` of a selected component list under
the label `self.label + '@'`, or a raised error. -/
inductive ComposeRes : Type where
  | single : CascEntry → ComposeRes
  | comp : List CascEntry → String → ComposeRes
  | error : String → ComposeRes
deriving DecidableEq, Repr

/-- Source `FSTCascade.compose` (casc.py:109-126).  A one-element cascade short
circuits to its element before any other argument is consulted.
Otherwise a truthy `subcasc` label must name a stored subcascade
(`"%r is not a valid subscascade label"`, typo as in the source) whose
indices select the components; with no subcascade the `begin`/`end`
slice is used, with optional `first`/`last` components prepended and
appended. -/
def cascCompose (c : CascState) (bg : Int) (end_ : Option Int)
    (first last : Option CascEntry) (subcasc : Option String) : ComposeRes :=
  match c.fsts with
  | [e] => .single e
  | _ =>
    let sliceBranch : ComposeRes :=
      let fs0 := pySlice c.fsts bg (end_.getD (c.fsts.length : Int))
      let fs1 := match first with
        | some f => f :: fs0
        | none => fs0
      let fs2 := match last with
        | some f => fs1 ++ [f]
        | none => fs1
      .comp fs2 (c.label ++ "@")
    match subcasc with
    | some s0 =>
        if s0 = "" then sliceBranch
        else
          match c.cascades.lookup s0 with
          | none => .error ("'" ++ s0 ++ "' is not a valid subscascade label")
          | some idxs =>
              match idxs.mapM (pyGet c.fsts) with
              | none => .error "list index out of range"
              | some sel => .comp sel (c.label ++ "@")
    | none => sliceBranch

/-- A path weight recorded by `MTax.parse`.  The feature-structure text
is carried verbatim: `FeatStructParser`/`FSSet.parse` (a large recursive
string parser) is outside the claims, which never inspect parsed
weights, only which branch produced them. -/
inductive MWeight : Type where
  | parsed : String → MWeight
  | parsedUpd : String → String → MWeight
  | emptyStr : MWeight
  | fromFs : String → MWeight
deriving DecidableEq, Repr

/-- One named state of the morphotactics: `[label, {'paths': [...],
'shortcuts': [...]}]` (mtax.py:84). -/
structure MtaxEntry : Type where
  label : String
  paths : List (String × MWeight)
  shortcuts : List (String × String)
deriving DecidableEq, Repr

/-- The mutable state of `MTax.parse`: the state list (whose last element
is `current_state`; it is `None` exactly when the list is empty), the
pending feature structure and its indentation, the line-continuation
buffer, the states added to the FST, and the initial state. -/
structure MtaxState : Type where
  states : List MtaxEntry
  currentFs : Option String
  currentIndent : Nat
  pending : String
  fstStates : List String
  initial : Option String
deriving DecidableEq, Repr

/-- Regex `STATE_RE = \s*\$\s+(\S+)$`: spaces, `$`, at least one space, then
a non-space token reaching the end of the line. -/
def matchState (l : List Char) : Option String :=
  match l.dropWhile pyWs with
  | '$' :: r =>
      match r with
      | c :: _ =>
          if pyWs c then
            let tok := r.dropWhile pyWs
            if tok ≠ [] ∧ tok.all (fun d => !pyWs d) then some (String.mk tok)
            else none
          else none
      | [] => none
  | _ => none

/-- Regex `FS_RE = (\s*)(\[.+?\])$`: leading spaces, `[`, and (because the
lazy group is anchored by `\]$`) the bracketed span runs to the final
`]`, which must be the last character, with at least one character
inside. -/
def matchFsLine (l : List Char) : Option (Nat × String) :=
  let indent := l.takeWhile pyWs
  match l.dropWhile pyWs with
  | '[' :: rest =>
      if 2 ≤ rest.length ∧ rest.getLast? = some ']' then
        some (indent.length, String.mk ('[' :: rest))
      else none
  | _ => none

/-- Regex `PATH_RE = (\s*?)(\S+)\s+(\[.*?\])$`: the input token is the first
maximal non-space run (backtracking inside it is impossible, since `\s+`
must follow), then spaces and a bracketed span ending the line (possibly
empty inside). -/
def matchPath (l : List Char) : Option (Nat × String × String) :=
  let indent := l.takeWhile pyWs
  let r := l.dropWhile pyWs
  let tok := r.takeWhile (fun c => !pyWs c)
  if tok = [] then none
  else
    match r.drop tok.length with
    | c :: rest2 =>
        if pyWs c then
          match (c :: rest2).dropWhile pyWs with
          | '[' :: rest3 =>
              if 1 ≤ rest3.length ∧ rest3.getLast? = some ']' then
                some (indent.length, String.mk tok,
                  String.mk ('[' :: rest3))
              else none
          | _ => none
        else none
    | [] => none

/-- The `\s+(\[.*?\])$` tail of `LEX_RE` after the closing `+`. -/
def lexTail (cs : List Char) : Option (List Char) :=
  match cs with
  | c :: rest2 =>
      if pyWs c then
        match (c :: rest2).dropWhile pyWs with
        | '[' :: rest3 =>
            if 1 ≤ rest3.length ∧ rest3.getLast? = some ']' then
              some ('[' :: rest3)
            else none
        | _ => none
      else none
  | [] => none

/-- Scan for the closing `+` of the lazy `(.*?)` of `LEX_RE`: the
earliest `+` whose remainder matches the tail wins; a `+` that does not
is absorbed into the file-name group. -/
def lexScan (acc : List Char) : List Char → Option (String × String)
  | [] => none
  | c :: cs =>
      if c = '+' then
        match lexTail cs with
        | some fss => some (String.mk acc.reverse, String.mk fss)
        | none => lexScan ('+' :: acc) cs
      else lexScan (c :: acc) cs

/-- Regex `LEX_RE = (\s*?)\+(.*?)\+\s+(\[.*?\])$`. -/
def matchLexM (l : List Char) : Option (Nat × String × String) :=
  let indent := l.takeWhile pyWs
  match l.dropWhile pyWs with
  | '+' :: rest =>
      (lexScan [] rest).map (fun pr => (indent.length, pr.1, pr.2))
  | _ => none

/-- The `\s*(\[.+?\])$` tail of `SHORTCUT_FS_RE` after the target-state
token: optional spaces, then a bracketed span (non-empty inside) ending
the line. -/
def shortcutTailFs (rem : List Char) : Option (List Char) :=
  match rem.dropWhile pyWs with
  | '[' :: rest =>
      if 2 ≤ rest.length ∧ rest.getLast? = some ']' then some ('[' :: rest)
      else none
  | _ => none

/-- The `\s*\+(.*?)\+$` tail of `SHORTCUT_LEX_RE`: optional spaces,
`+`, the group, and a final `+` that must end the line. -/
def shortcutTailLex (rem : List Char) : Option (List Char) :=
  match rem.dropWhile pyWs with
  | '+' :: rest =>
      if 1 ≤ rest.length ∧ rest.getLast? = some '+' then some rest.dropLast
      else none
  | _ => none

/-- Backtracking for a greedy `(\S+)` followed by a given tail pattern
(longest token first, then shorter, as the regex engine does); the token
is carried reversed. -/
def splitTokenTail (tail : List Char → Option (List Char)) :
    List Char → List Char → Option (List Char × List Char)
  | [], _ => none
  | c :: labRev, rest =>
      match tail rest with
      | some content => some ((c :: labRev).reverse, content)
      | none => splitTokenTail tail labRev (c :: rest)

/-- Regex `SHORTCUT_FS_RE = \s*->\s*(\S+)\s*(\[.+?\])$`. -/
def matchShortcutFs (l : List Char) : Option (String × String) :=
  match l.dropWhile pyWs with
  | '-' :: '>' :: r =>
      let r1 := r.dropWhile pyWs
      let run := r1.takeWhile (fun c => !pyWs c)
      if run = [] then none
      else (splitTokenTail shortcutTailFs run.reverse (r1.drop run.length)).map
        (fun pr => (String.mk pr.1, String.mk pr.2))
  | _ => none

/-- Regex `SHORTCUT_LEX_RE = \s*->\s*(\S+)\s*\+(.*?)\+$`. -/
def matchShortcutLex (l : List Char) : Option (String × String) :=
  match l.dropWhile pyWs with
  | '-' :: '>' :: r =>
      let r1 := r.dropWhile pyWs
      let run := r1.takeWhile (fun c => !pyWs c)
      if run = [] then none
      else (splitTokenTail shortcutTailLex run.reverse (r1.drop run.length)).map
        (fun pr => (String.mk pr.1, String.mk pr.2))
  | _ => none

/-- Regex `PATH_NO_FS_RE = (\s*?)(\S+)$`: spaces then a single non-space token
ending the line. -/
def matchPathNoFs (l : List Char) : Option (Nat × String) :=
  let indent := l.takeWhile pyWs
  let rest := l.dropWhile pyWs
  if rest ≠ [] ∧ rest.all (fun c => !pyWs c) then
    some (indent.length, String.mk rest)
  else none

/-- Append to `current_state[1]['paths']` (the last state); when no state
line has been seen, `current_state` is `None` and Python raises
`TypeError`. -/
def mtaxAppendPath (st : MtaxState) (name : String) (w : MWeight) :
    Except String MtaxState :=
  match st.states.getLast? with
  | none => .error "TypeError: 'NoneType' object is not subscriptable"
  | some lastSt =>
      .ok {st with states := st.states.dropLast ++
        [{lastSt with paths := lastSt.paths ++ [(name, w)]}]}

/-- Append to `current_state[1]['shortcuts']`. -/
def mtaxAppendShortcut (st : MtaxState) (tgt pay : String) :
    Except String MtaxState :=
  match st.states.getLast? with
  | none => .error "TypeError: 'NoneType' object is not subscriptable"
  | some lastSt =>
      .ok {st with states := st.states.dropLast ++
        [{lastSt with shortcuts := lastSt.shortcuts ++ [(tgt, pay)]}]}

/-- Path weight for a `LEX_RE`/`PATH_RE` line (mtax.py:98-101, 120-123):
the parsed set, updated with `current_fs` when the line is indented
deeper than the pending feature structure (whose truthiness is modelled
as presence). -/
def mtaxWeight (st : MtaxState) (indent : Nat) (fss : String) : MWeight :=
  match st.currentFs with
  | some ctx =>
      if st.currentIndent < indent then .parsedUpd fss ctx else .parsed fss
  | none => .parsed fss

/-- One iteration of the `MTax.parse` line loop (mtax.py:60-152): strip
comments, `rstrip`, skip blanks, buffer lines ending in `;` onto the
next line, then try the seven line forms in source order; a line
matching none raises `ValueError("bad line: %r" % line)`. -/
def mtaxLine (st : MtaxState) (raw : String) : Except String MtaxState :=
  let line := pyRstrip (takeUntilHash raw.toList)
  if line = [] then .ok st
  else if line.getLast? = some ';' then
    .ok {st with pending := st.pending ++ String.mk line}
  else
  let full := st.pending.toList ++ line
  let st1 := {st with pending := ""}
  match matchState full with
  | some lab =>
      .ok {st1 with
        states := st1.states ++ [⟨lab, [], []⟩],
        currentFs := none,
        currentIndent := 0,
        fstStates := st1.fstStates ++ [lab],
        initial := if st1.states = [] then some lab else st1.initial}
  | none =>
  match matchLexM full with
  | some (ind, lab, fss) =>
      mtaxAppendPath st1 (lab ++ ".lex") (mtaxWeight st1 ind fss)
  | none =>
  match matchFsLine full with
  | some (ind, fs) => .ok {st1 with currentFs := some fs, currentIndent := ind}
  | none =>
  match matchPath full with
  | some (ind, tok, fss) => mtaxAppendPath st1 tok (mtaxWeight st1 ind fss)
  | none =>
  match matchShortcutFs full with
  | some (tgt, fss) => mtaxAppendShortcut st1 tgt fss
  | none =>
  match matchShortcutLex full with
  | some (tgt, lab) => mtaxAppendShortcut st1 tgt (lab ++ ".lex")
  | none =>
  match matchPathNoFs full with
  | some (ind, tok) =>
      let w : MWeight :=
        match st1.currentFs with
        | some ctx => if st1.currentIndent < ind then .fromFs ctx else .emptyStr
        | none => .emptyStr
      mtaxAppendPath st1 tok w
  | none => .error (badLineMsg full)

/-- The `while lines:` loop of `MTax.parse`. -/
def mtaxParse : MtaxState → List String → Except String MtaxState
  | st, [] => .ok st
  | st, l :: ls =>
      match mtaxLine st l with
      | .error e => .error e
      | .ok st1 => mtaxParse st1 ls

theorem clLt_asymm : ∀ a b, clLt a b = true → clLt b a = false := by
  intro a
  induction a with
  | nil => intro b _; cases b <;> simp_all [clLt]
  | cons c cs ih =>
      intro b h
      cases b with
      | nil => simp [clLt] at h
      | cons d ds =>
          simp only [clLt] at h ⊢
          by_cases h1 : c.toNat < d.toNat
          · have h2 : ¬ d.toNat < c.toNat := by omega
            simp [h1, h2]
          · by_cases h2 : d.toNat < c.toNat
            · simp [h1, h2] at h
            · simp only [h1, h2, if_neg, if_false] at h ⊢
              exact ih ds h

theorem clLt_total_eq : ∀ a b, clLt a b = false → clLt b a = false → a = b := by
  intro a
  induction a with
  | nil => intro b _ h2; cases b <;> simp_all [clLt]
  | cons c cs ih =>
      intro b h1 h2
      cases b with
      | nil => simp [clLt] at h2
      | cons d ds =>
          simp only [clLt] at h1 h2
          by_cases hcd : c.toNat < d.toNat
          · simp [hcd] at h1
          · by_cases hdc : d.toNat < c.toNat
            · simp [hdc, hcd] at h2
            · have hn : c.toNat = d.toNat := by omega
              have hc : c = d := Char.ext_iff.mpr (UInt32.ext_iff.mpr hn)
              simp only [hcd, hdc, if_neg, if_false] at h1 h2
              rw [hc, ih ds h1 h2]

theorem strLt_asymm (a b : String) (h : strLt a b = true) : strLt b a = false :=
  clLt_asymm _ _ h

theorem strLt_total_eq (a b : String) (h1 : strLt a b = false)
    (h2 : strLt b a = false) : a = b := by
  have := clLt_total_eq a.toList b.toList h1 h2
  cases a; cases b; simpa [String.toList] using congrArg String.mk this

theorem usize_pos (x : UVal) : 1 ≤ x.usize := by
  cases x with
  | atom a => simp [UVal.usize]
  | top => simp [UVal.usize]
  | fcons k v r => simp [UVal.usize]; omega

/-- One fuel step does not change `mergeN` once the fuel covers the
combined size of the operands. -/
theorem mergeN_succ (n : Nat) : ∀ x y : UVal, usize x + usize y ≤ n →
    mergeN (n + 1) x y = mergeN n x y := by
  induction n using Nat.strong_induction_on with
  | _ n ih =>
    intro x y hs
    match n, x, y with
    | 0, x, y =>
        have h1 := usize_pos x
        have h2 := usize_pos y
        omega
    | m + 1, .atom a, y => cases y <;> simp [mergeN, mergeBody]
    | m + 1, .top, .atom a => simp [mergeN, mergeBody]
    | m + 1, .fcons k v r, .atom a => simp [mergeN, mergeBody]
    | m + 1, .top, .top => simp [mergeN, mergeBody]
    | m + 1, .fcons k v r, .top =>
        have hv := usize_pos v
        simp only [UVal.usize] at hs
        have h1 : usize r + usize UVal.top ≤ m := by simp [UVal.usize]; omega
        show mergeBody (mergeN (m + 1)) _ _ = mergeBody (mergeN m) _ _
        simp only [mergeBody, ih m (Nat.lt_succ_self m) r .top h1]
    | m + 1, .top, .fcons k v r =>
        have hv := usize_pos v
        simp only [UVal.usize] at hs
        have h1 : usize UVal.top + usize r ≤ m := by simp [UVal.usize]; omega
        show mergeBody (mergeN (m + 1)) _ _ = mergeBody (mergeN m) _ _
        simp only [mergeBody, ih m (Nat.lt_succ_self m) .top r h1]
    | m + 1, .fcons k1 v1 r1, .fcons k2 v2 r2 =>
        have hv1 := usize_pos v1
        have hr1 := usize_pos r1
        have hv2 := usize_pos v2
        have hr2 := usize_pos r2
        simp only [UVal.usize] at hs
        have e1 : usize r1 + usize (UVal.fcons k2 v2 r2) ≤ m := by
          simp [UVal.usize]; omega
        have e2 : usize (UVal.fcons k1 v1 r1) + usize r2 ≤ m := by
          simp [UVal.usize]; omega
        have e3 : usize v1 + usize v2 ≤ m := by omega
        have e4 : usize r1 + usize r2 ≤ m := by omega
        show mergeBody (mergeN (m + 1)) _ _ = mergeBody (mergeN m) _ _
        simp only [mergeBody, ih m (Nat.lt_succ_self m) r1 (.fcons k2 v2 r2) e1,
          ih m (Nat.lt_succ_self m) (.fcons k1 v1 r1) r2 e2,
          ih m (Nat.lt_succ_self m) v1 v2 e3,
          ih m (Nat.lt_succ_self m) r1 r2 e4]

/-- Source `mergeN` is independent of the fuel once it covers the sizes. -/
theorem mergeN_stable (n : Nat) (x y : UVal) (h : usize x + usize y ≤ n) :
    mergeN n x y = mergeN (usize x + usize y) x y := by
  induction n, h using Nat.le_induction with
  | base => rfl
  | succ n hn ihm => rw [mergeN_succ n x y hn, ihm]

theorem suStep_comm (x y : UVal) (d : Option UVal) :
    suStep x y d = suStep y x d := by
  by_cases h : x = y
  · subst h; rfl
  · have h' : y ≠ x := fun hyx => h hyx.symm
    simp only [suStep, h, h', if_neg, if_false, Bool.and_comm]

/-- The key-union merge is symmetric in its operands (at every fuel). -/
theorem mergeN_comm : ∀ (n : Nat) (x y : UVal), mergeN n x y = mergeN n y x := by
  intro n
  induction n with
  | zero => intro x y; rfl
  | succ m ih =>
    intro x y
    show mergeBody (mergeN m) x y = mergeBody (mergeN m) y x
    match x, y with
    | .atom a, y => cases y <;> rfl
    | .top, .atom a => rfl
    | .fcons k v r, .atom a => rfl
    | .top, .top => rfl
    | .fcons k v r, .top => simp only [mergeBody, ih r .top]
    | .top, .fcons k v r => simp only [mergeBody, ih .top r]
    | .fcons k1 v1 r1, .fcons k2 v2 r2 =>
        simp only [mergeBody]
        by_cases h12 : strLt k1 k2 = true
        · have h21 : strLt k2 k1 = false := strLt_asymm _ _ h12
          simp only [h12, h21, if_true, if_false, Bool.false_eq_true,
            ih r1 (.fcons k2 v2 r2)]
        · by_cases h21 : strLt k2 k1 = true
          · simp only [h12, h21, if_true, if_false, Bool.false_eq_true,
              ih (.fcons k1 v1 r1) r2]
          · have hk : k1 = k2 :=
              strLt_total_eq _ _ (Bool.eq_false_iff.mpr h12) (Bool.eq_false_iff.mpr h21)
            subst hk
            simp only [h12, h21, if_neg, if_false, ih r1 r2, ih v1 v2,
              suStep_comm v1 v2]
            by_cases n1 : v1 = UNIL <;> by_cases n2 : v2 = UNIL <;>
              simp [n1, n2]

/-- Source `simple_unify` is commutative (spec.md section 8). -/
theorem simple_unify_comm (x y : UVal) : simple_unify x y = simple_unify y x := by
  unfold simple_unify
  rw [suStep_comm, mergeN_comm, Nat.add_comm]

/-- The `'fail'` sentinel absorbs any further unification. -/
theorem simple_unify_fail_left (c : UVal) : simple_unify UFAIL c = UFAIL := by
  by_cases h : UFAIL = c <;>
    simp [simple_unify, suStep, h, UVal.isFS, UVal.UFAIL]

theorem clLt_irrefl (a : List Char) : clLt a a = false := by
  induction a with
  | nil => rfl
  | cons c cs ih => simp [clLt, ih]

theorem clLt_trans : ∀ a b c, clLt a b = true → clLt b c = true →
    clLt a c = true := by
  intro a
  induction a with
  | nil =>
      intro b c h1 h2
      cases b with
      | nil => exact h2
      | cons d ds =>
          cases c with
          | nil => simp [clLt] at h2
          | cons e es => simp [clLt]
  | cons x xs ih =>
      intro b c h1 h2
      cases b with
      | nil => simp [clLt] at h1
      | cons d ds =>
          cases c with
          | nil => simp [clLt] at h2
          | cons e es =>
              simp only [clLt] at h1 h2 ⊢
              by_cases hxd : x.toNat < d.toNat
              · by_cases hde : d.toNat < e.toNat
                · have hxe : x.toNat < e.toNat := by omega
                  simp [hxe]
                · by_cases hed : e.toNat < d.toNat
                  · simp [hde, hed] at h2
                  · have hxe : x.toNat < e.toNat := by omega
                    simp [hxe]
              · by_cases hdx : d.toNat < x.toNat
                · simp [hxd, hdx] at h1
                · by_cases hde : d.toNat < e.toNat
                  · have hxe : x.toNat < e.toNat := by omega
                    simp [hxe]
                  · by_cases hed : e.toNat < d.toNat
                    · simp [hde, hed] at h2
                    · have hxe : ¬ x.toNat < e.toNat := by omega
                      have hex : ¬ e.toNat < x.toNat := by omega
                      simp only [hxd, hdx, if_neg, if_false] at h1
                      simp only [hde, hed, if_neg, if_false] at h2
                      simp only [hxe, hex, if_neg, if_false]
                      exact ih ds es h1 h2

theorem strLt_irrefl (k : String) : strLt k k = false := clLt_irrefl _

theorem strLt_trans (a b c : String) (h1 : strLt a b = true)
    (h2 : strLt b c = true) : strLt a c = true := clLt_trans _ _ _ h1 h2

theorem alookup_fcons (k : String) (v r : UVal) (key : String) :
    alookup (.fcons k v r) key = if key = k then some v else alookup r key := rfl

/-- In a well-formed chain every key is strictly above a lower bound on
the first key, so looking such a bound up yields nothing. -/
theorem alookup_none_of_lt : ∀ (r : UVal) (k0 : String), wfU r = true →
    (match firstKey r with
     | none => True
     | some kf => strLt k0 kf = true) →
    alookup r k0 = none := by
  intro r
  induction r with
  | atom a => intro k0 _ _; rfl
  | top => intro k0 _ _; rfl
  | fcons kf v r ihv ihr =>
      intro k0 hwf hb
      simp only [UVal.firstKey] at hb
      have hne : k0 ≠ kf := by
        intro he
        rw [he] at hb
        rw [strLt_irrefl] at hb
        exact Bool.false_ne_true hb
      simp only [UVal.wfU, Bool.and_eq_true] at hwf
      rw [alookup_fcons, if_neg hne]
      apply ihr k0 hwf.1.1.2
      cases r with
      | atom a => simp [UVal.isFS] at hwf
      | top => trivial
      | fcons kf2 v2 r2 =>
          have hb2 : strLt kf kf2 = true := by
            have := hwf.2
            simpa [UVal.firstKey] using this
          exact strLt_trans _ _ _ hb hb2

theorem wfU_fcons {k : String} {v r : UVal}
    (h : wfU (.fcons k v r) = true) :
    wfU v = true ∧ wfU r = true ∧ isFS r = true ∧ alookup r k = none := by
  simp only [UVal.wfU, Bool.and_eq_true] at h
  refine ⟨h.1.1.1, h.1.1.2, h.1.2, ?_⟩
  apply alookup_none_of_lt r k h.1.1.2
  cases r with
  | atom a => simp [UVal.isFS] at h
  | top => trivial
  | fcons kf2 v2 r2 => simpa [UVal.firstKey] using h.2

/-- Full characterization of `mergeN` (= `unify_dicts` at sufficient
fuel) against the spec's per-feature table: a successful merge is defined
exactly on the union of the (non-`'nil'`) feature names with the claimed
values, and a failed merge exhibits a feature on which both operands'
(non-`'nil'`) values fail to unify. -/
theorem mergeN_spec (n : Nat) : ∀ (x y : UVal),
    usize x + usize y ≤ n → isFS x = true → isFS y = true →
    wfU x = true → wfU y = true →
    (match mergeN n x y with
     | some r =>
         (∀ key, alookup r key = specUnifyAt (alookup x key) (alookup y key))
         ∧ (∀ key vx vy, alookup x key = some vx → alookup y key = some vy →
              vx ≠ UNIL → vy ≠ UNIL → simple_unify vx vy ≠ UFAIL)
     | none =>
         ∃ key vx vy, alookup x key = some vx ∧ alookup y key = some vy ∧
           vx ≠ UNIL ∧ vy ≠ UNIL ∧ simple_unify vx vy = UFAIL) := by
  induction n using Nat.strong_induction_on with
  | _ n ih =>
    intro x y hs hfx hfy hwx hwy
    match n, x, y with
    | 0, x, y =>
        have h1 := usize_pos x
        have h2 := usize_pos y
        omega
    | m + 1, .atom a, y => simp [UVal.isFS] at hfx
    | m + 1, .top, .atom a => simp [UVal.isFS] at hfy
    | m + 1, .fcons k v r, .atom a => simp [UVal.isFS] at hfy
    | m + 1, .top, .top =>
        simp only [mergeN, mergeBody]
        constructor
        · intro key; simp [UVal.alookup, specUnifyAt, denil]
        · intro key vx vy hx'
          simp [UVal.alookup] at hx'
    | m + 1, .fcons k v r, .top =>
        obtain ⟨hwv, hwr, hfr, hkr⟩ := wfU_fcons hwx
        have hv1 := usize_pos v
        simp only [UVal.usize] at hs
        have hsz : usize r + usize UVal.top ≤ m := by simp [UVal.usize]; omega
        have IH := ih m (Nat.lt_succ_self m) r .top hsz hfr rfl hwr rfl
        simp only [mergeN, mergeBody]
        by_cases hv : v = UNIL
        · rw [if_pos hv]
          cases hmr : mergeN m r .top with
          | none =>
              rw [hmr] at IH
              obtain ⟨key, vx, vy, _, hy', _⟩ := IH
              simp [UVal.alookup] at hy'
          | some rr =>
              rw [hmr] at IH
              constructor
              · intro key
                rw [IH.1 key]
                by_cases hk : key = k
                · subst hk
                  rw [hkr]
                  simp [UVal.alookup, alookup_fcons, specUnifyAt, denil, hv]
                · simp [alookup_fcons, hk]
              · intro key vx vy _ hy'
                simp [UVal.alookup] at hy'
        · rw [if_neg hv]
          cases hmr : mergeN m r .top with
          | none =>
              rw [hmr] at IH
              obtain ⟨key, vx, vy, _, hy', _⟩ := IH
              simp [UVal.alookup] at hy'
          | some rr =>
              rw [hmr] at IH
              simp only [Option.map_some']
              constructor
              · intro key
                by_cases hk : key = k
                · subst hk
                  simp [alookup_fcons, specUnifyAt, denil, hv, UVal.alookup]
                · simp [alookup_fcons, hk, IH.1 key]
              · intro key vx vy _ hy'
                simp [UVal.alookup] at hy'
    | m + 1, .top, .fcons k v r =>
        obtain ⟨hwv, hwr, hfr, hkr⟩ := wfU_fcons hwy
        have hv1 := usize_pos v
        simp only [UVal.usize] at hs
        have hsz : usize UVal.top + usize r ≤ m := by simp [UVal.usize]; omega
        have IH := ih m (Nat.lt_succ_self m) .top r hsz rfl hfr rfl hwr
        simp only [mergeN, mergeBody]
        by_cases hv : v = UNIL
        · rw [if_pos hv]
          cases hmr : mergeN m .top r with
          | none =>
              rw [hmr] at IH
              obtain ⟨key, vx, vy, hx', _, _⟩ := IH
              simp [UVal.alookup] at hx'
          | some rr =>
              rw [hmr] at IH
              constructor
              · intro key
                rw [IH.1 key]
                by_cases hk : key = k
                · subst hk
                  rw [hkr]
                  simp [UVal.alookup, alookup_fcons, specUnifyAt, denil, hv]
                · simp [alookup_fcons, hk]
              · intro key vx vy hx'
                simp [UVal.alookup] at hx'
        · rw [if_neg hv]
          cases hmr : mergeN m .top r with
          | none =>
              rw [hmr] at IH
              obtain ⟨key, vx, vy, hx', _, _⟩ := IH
              simp [UVal.alookup] at hx'
          | some rr =>
              rw [hmr] at IH
              simp only [Option.map_some']
              constructor
              · intro key
                by_cases hk : key = k
                · subst hk
                  simp [alookup_fcons, specUnifyAt, denil, hv, UVal.alookup]
                · simp [alookup_fcons, hk, IH.1 key]
              · intro key vx vy hx'
                simp [UVal.alookup] at hx'
    | m + 1, .fcons k1 v1 r1, .fcons k2 v2 r2 =>
        obtain ⟨hwv1, hwr1, hfr1, hk1r1⟩ := wfU_fcons hwx
        obtain ⟨hwv2, hwr2, hfr2, hk2r2⟩ := wfU_fcons hwy
        have hp1 := usize_pos v1
        have hp2 := usize_pos v2
        have hp3 := usize_pos r1
        have hp4 := usize_pos r2
        simp only [UVal.usize] at hs
        simp only [mergeN, mergeBody]
        by_cases h12 : strLt k1 k2 = true
        · -- k1 strictly first: head of x is an x-only feature
          have hne12 : k1 ≠ k2 := by
            intro he
            rw [he, strLt_irrefl] at h12
            exact Bool.false_ne_true h12
          have hyk1 : alookup (UVal.fcons k2 v2 r2) k1 = none := by
            apply alookup_none_of_lt _ _ hwy
            simpa [UVal.firstKey] using h12
          have hsz : usize r1 + usize (UVal.fcons k2 v2 r2) ≤ m := by
            simp [UVal.usize]; omega
          have IH := ih m (Nat.lt_succ_self m) r1 (.fcons k2 v2 r2) hsz hfr1
            rfl hwr1 hwy
          rw [if_pos h12]
          by_cases hv : v1 = UNIL
          · rw [if_pos hv]
            cases hmr : mergeN m r1 (.fcons k2 v2 r2) with
            | none =>
                rw [hmr] at IH
                obtain ⟨key, vx, vy, hx', hy', hnx, hny, hf⟩ := IH
                have hne : key ≠ k1 := by
                  intro he; rw [he, hk1r1] at hx'; exact Option.noConfusion hx'
                exact ⟨key, vx, vy, by simp [alookup_fcons, hne, hx'],
                  hy', hnx, hny, hf⟩
            | some rr =>
                rw [hmr] at IH
                constructor
                · intro key
                  rw [IH.1 key]
                  by_cases hk : key = k1
                  · subst hk
                    rw [hk1r1, hyk1]
                    simp [alookup_fcons, hne12, specUnifyAt, denil, hv, hk2r2]
                  · simp [alookup_fcons, hk]
                · intro key vx vy hx' hy' hnx hny
                  by_cases hk : key = k1
                  · subst hk
                    rw [hyk1] at hy'
                    exact Option.noConfusion hy'
                  · rw [alookup_fcons, if_neg hk] at hx'
                    exact IH.2 key vx vy hx' hy' hnx hny
          · rw [if_neg hv]
            cases hmr : mergeN m r1 (.fcons k2 v2 r2) with
            | none =>
                rw [hmr] at IH
                obtain ⟨key, vx, vy, hx', hy', hnx, hny, hf⟩ := IH
                have hne : key ≠ k1 := by
                  intro he; rw [he, hk1r1] at hx'; exact Option.noConfusion hx'
                exact ⟨key, vx, vy, by simp [alookup_fcons, hne, hx'],
                  hy', hnx, hny, hf⟩
            | some rr =>
                rw [hmr] at IH
                simp only [Option.map_some']
                constructor
                · intro key
                  by_cases hk : key = k1
                  · subst hk
                    rw [show alookup (UVal.fcons k2 v2 r2) key = none from hyk1]
                    simp [alookup_fcons, specUnifyAt, denil, hv]
                  · simp [alookup_fcons, hk, IH.1 key]
                · intro key vx vy hx' hy' hnx hny
                  by_cases hk : key = k1
                  · subst hk
                    rw [hyk1] at hy'
                    exact Option.noConfusion hy'
                  · rw [alookup_fcons, if_neg hk] at hx'
                    exact IH.2 key vx vy hx' hy' hnx hny
        · by_cases h21 : strLt k2 k1 = true
          · -- k2 strictly first: head of y is a y-only feature
            have hne21 : k2 ≠ k1 := by
              intro he
              rw [he, strLt_irrefl] at h21
              exact Bool.false_ne_true h21
            have hxk2 : alookup (UVal.fcons k1 v1 r1) k2 = none := by
              apply alookup_none_of_lt _ _ hwx
              simpa [UVal.firstKey] using h21
            have hsz : usize (UVal.fcons k1 v1 r1) + usize r2 ≤ m := by
              simp [UVal.usize]; omega
            have IH := ih m (Nat.lt_succ_self m) (.fcons k1 v1 r1) r2 hsz rfl
              hfr2 hwx hwr2
            rw [if_neg h12, if_pos h21]
            by_cases hv : v2 = UNIL
            · rw [if_pos hv]
              cases hmr : mergeN m (.fcons k1 v1 r1) r2 with
              | none =>
                  rw [hmr] at IH
                  obtain ⟨key, vx, vy, hx', hy', hnx, hny, hf⟩ := IH
                  have hne : key ≠ k2 := by
                    intro he; rw [he, hk2r2] at hy'; exact Option.noConfusion hy'
                  exact ⟨key, vx, vy, hx', by simp [alookup_fcons, hne, hy'],
                    hnx, hny, hf⟩
              | some rr =>
                  rw [hmr] at IH
                  constructor
                  · intro key
                    rw [IH.1 key]
                    by_cases hk : key = k2
                    · subst hk
                      rw [hk2r2, hxk2]
                      simp [alookup_fcons, hne21.symm, specUnifyAt, denil, hv,
                        hk1r1]
                    · simp [alookup_fcons, hk]
                  · intro key vx vy hx' hy' hnx hny
                    by_cases hk : key = k2
                    · subst hk
                      rw [hxk2] at hx'
                      exact Option.noConfusion hx'
                    · rw [alookup_fcons, if_neg hk] at hy'
                      exact IH.2 key vx vy hx' hy' hnx hny
            · rw [if_neg hv]
              cases hmr : mergeN m (.fcons k1 v1 r1) r2 with
              | none =>
                  rw [hmr] at IH
                  obtain ⟨key, vx, vy, hx', hy', hnx, hny, hf⟩ := IH
                  have hne : key ≠ k2 := by
                    intro he; rw [he, hk2r2] at hy'; exact Option.noConfusion hy'
                  exact ⟨key, vx, vy, hx', by simp [alookup_fcons, hne, hy'],
                    hnx, hny, hf⟩
              | some rr =>
                  rw [hmr] at IH
                  simp only [Option.map_some']
                  constructor
                  · intro key
                    by_cases hk : key = k2
                    · subst hk
                      rw [show alookup (UVal.fcons k1 v1 r1) key = none from hxk2]
                      simp [alookup_fcons, specUnifyAt, denil, hv]
                    · simp [alookup_fcons, hk, IH.1 key]
                  · intro key vx vy hx' hy' hnx hny
                    by_cases hk : key = k2
                    · subst hk
                      rw [hxk2] at hx'
                      exact Option.noConfusion hx'
                    · rw [alookup_fcons, if_neg hk] at hy'
                      exact IH.2 key vx vy hx' hy' hnx hny
          · -- identical keys: unify the two values
            have hk : k1 = k2 :=
              strLt_total_eq _ _ (Bool.eq_false_iff.mpr h12)
                (Bool.eq_false_iff.mpr h21)
            subst hk
            have hsz : usize r1 + usize r2 ≤ m := by omega
            have IH := ih m (Nat.lt_succ_self m) r1 r2 hsz hfr1 hfr2 hwr1 hwr2
            have hszv : usize v1 + usize v2 ≤ m := by omega
            have hstab : mergeN m v1 v2 = mergeN (usize v1 + usize v2) v1 v2 :=
              mergeN_stable m v1 v2 hszv
            have hsu : suStep v1 v2 (mergeN m v1 v2) = simple_unify v1 v2 := by
              rw [hstab]; rfl
            rw [if_neg h12, if_neg h21]
            by_cases hv1 : v1 = UNIL
            · rw [if_pos hv1]
              by_cases hv2 : v2 = UNIL
              · rw [if_pos hv2]
                cases hmr : mergeN m r1 r2 with
                | none =>
                    rw [hmr] at IH
                    obtain ⟨key, vx, vy, hx', hy', hnx, hny, hf⟩ := IH
                    have hne : key ≠ k1 := by
                      intro he; rw [he, hk1r1] at hx'; exact Option.noConfusion hx'
                    exact ⟨key, vx, vy, by simp [alookup_fcons, hne, hx'],
                      by simp [alookup_fcons, hne, hy'], hnx, hny, hf⟩
                | some rr =>
                    rw [hmr] at IH
                    constructor
                    · intro key
                      rw [IH.1 key]
                      by_cases hkk : key = k1
                      · subst hkk
                        rw [hk1r1, hk2r2]
                        simp [alookup_fcons, specUnifyAt, denil, hv1, hv2]
                      · simp [alookup_fcons, hkk]
                    · intro key vx vy hx' hy' hnx hny
                      by_cases hkk : key = k1
                      · subst hkk
                        rw [alookup_fcons, if_pos rfl] at hx'
                        cases hx'
                        exact absurd hv1 hnx
                      · rw [alookup_fcons, if_neg hkk] at hx'
                        rw [alookup_fcons, if_neg hkk] at hy'
                        exact IH.2 key vx vy hx' hy' hnx hny
              · rw [if_neg hv2]
                cases hmr : mergeN m r1 r2 with
                | none =>
                    rw [hmr] at IH
                    obtain ⟨key, vx, vy, hx', hy', hnx, hny, hf⟩ := IH
                    have hne : key ≠ k1 := by
                      intro he; rw [he, hk1r1] at hx'; exact Option.noConfusion hx'
                    exact ⟨key, vx, vy, by simp [alookup_fcons, hne, hx'],
                      by simp [alookup_fcons, hne, hy'], hnx, hny, hf⟩
                | some rr =>
                    rw [hmr] at IH
                    simp only [Option.map_some']
                    constructor
                    · intro key
                      by_cases hkk : key = k1
                      · subst hkk
                        simp [alookup_fcons, specUnifyAt, denil, hv1, hv2]
                      · simp [alookup_fcons, hkk, IH.1 key]
                    · intro key vx vy hx' hy' hnx hny
                      by_cases hkk : key = k1
                      · subst hkk
                        rw [alookup_fcons, if_pos rfl] at hx'
                        cases hx'
                        exact absurd hv1 hnx
                      · rw [alookup_fcons, if_neg hkk] at hx'
                        rw [alookup_fcons, if_neg hkk] at hy'
                        exact IH.2 key vx vy hx' hy' hnx hny
            · rw [if_neg hv1]
              by_cases hv2 : v2 = UNIL
              · rw [if_pos hv2]
                cases hmr : mergeN m r1 r2 with
                | none =>
                    rw [hmr] at IH
                    obtain ⟨key, vx, vy, hx', hy', hnx, hny, hf⟩ := IH
                    have hne : key ≠ k1 := by
                      intro he; rw [he, hk1r1] at hx'; exact Option.noConfusion hx'
                    exact ⟨key, vx, vy, by simp [alookup_fcons, hne, hx'],
                      by simp [alookup_fcons, hne, hy'], hnx, hny, hf⟩
                | some rr =>
                    rw [hmr] at IH
                    simp only [Option.map_some']
                    constructor
                    · intro key
                      by_cases hkk : key = k1
                      · subst hkk
                        simp [alookup_fcons, specUnifyAt, denil, hv1, hv2]
                      · simp [alookup_fcons, hkk, IH.1 key]
                    · intro key vx vy hx' hy' hnx hny
                      by_cases hkk : key = k1
                      · subst hkk
                        rw [alookup_fcons, if_pos rfl] at hy'
                        cases hy'
                        exact absurd hv2 hny
                      · rw [alookup_fcons, if_neg hkk] at hx'
                        rw [alookup_fcons, if_neg hkk] at hy'
                        exact IH.2 key vx vy hx' hy' hnx hny
              · rw [if_neg hv2]
                simp only [hsu]
                by_cases hu : simple_unify v1 v2 = UFAIL
                · rw [if_pos hu]
                  exact ⟨k1, v1, v2, by simp [alookup_fcons],
                    by simp [alookup_fcons], hv1, hv2, hu⟩
                · rw [if_neg hu]
                  cases hmr : mergeN m r1 r2 with
                  | none =>
                      rw [hmr] at IH
                      obtain ⟨key, vx, vy, hx', hy', hnx, hny, hf⟩ := IH
                      have hne : key ≠ k1 := by
                        intro he; rw [he, hk1r1] at hx'
                        exact Option.noConfusion hx'
                      exact ⟨key, vx, vy, by simp [alookup_fcons, hne, hx'],
                        by simp [alookup_fcons, hne, hy'], hnx, hny, hf⟩
                  | some rr =>
                      rw [hmr] at IH
                      simp only [Option.map_some']
                      constructor
                      · intro key
                        by_cases hkk : key = k1
                        · subst hkk
                          simp [alookup_fcons, specUnifyAt, denil, hv1, hv2]
                        · simp [alookup_fcons, hkk, IH.1 key]
                      · intro key vx vy hx' hy' hnx hny
                        by_cases hkk : key = k1
                        · subst hkk
                          rw [alookup_fcons, if_pos rfl] at hx'
                          rw [alookup_fcons, if_pos rfl] at hy'
                          cases hx'
                          cases hy'
                          exact hu
                        · rw [alookup_fcons, if_neg hkk] at hx'
                          rw [alookup_fcons, if_neg hkk] at hy'
                          exact IH.2 key vx vy hx' hy' hnx hny

theorem mergeN_isFS : ∀ (n : Nat) (x y r : UVal),
    mergeN n x y = some r → isFS r = true := by
  intro n
  induction n with
  | zero => intro x y r h; exact Option.noConfusion h
  | succ m ih =>
    intro x y r h
    match x, y with
    | .atom a, y =>
        cases y <;> exact Option.noConfusion h
    | .top, .atom a => exact Option.noConfusion h
    | .fcons k v rx, .atom a => exact Option.noConfusion h
    | .top, .top =>
        simp only [mergeN, mergeBody] at h
        cases h
        rfl
    | .fcons k v rx, .top =>
        simp only [mergeN, mergeBody] at h
        by_cases hv : v = UNIL
        · rw [if_pos hv] at h
          exact ih _ _ _ h
        · rw [if_neg hv] at h
          obtain ⟨a, _, rfl⟩ := Option.map_eq_some'.mp h
          rfl
    | .top, .fcons k v ry =>
        simp only [mergeN, mergeBody] at h
        by_cases hv : v = UNIL
        · rw [if_pos hv] at h
          exact ih _ _ _ h
        · rw [if_neg hv] at h
          obtain ⟨a, _, rfl⟩ := Option.map_eq_some'.mp h
          rfl
    | .fcons k1 v1 r1, .fcons k2 v2 r2 =>
        simp only [mergeN, mergeBody] at h
        by_cases h12 : strLt k1 k2 = true
        · rw [if_pos h12] at h
          by_cases hv : v1 = UNIL
          · rw [if_pos hv] at h
            exact ih _ _ _ h
          · rw [if_neg hv] at h
            obtain ⟨a, _, rfl⟩ := Option.map_eq_some'.mp h
            rfl
        · rw [if_neg h12] at h
          by_cases h21 : strLt k2 k1 = true
          · rw [if_pos h21] at h
            by_cases hv : v2 = UNIL
            · rw [if_pos hv] at h
              exact ih _ _ _ h
            · rw [if_neg hv] at h
              obtain ⟨a, _, rfl⟩ := Option.map_eq_some'.mp h
              rfl
          · rw [if_neg h21] at h
            by_cases hv1 : v1 = UNIL
            · rw [if_pos hv1] at h
              by_cases hv2 : v2 = UNIL
              · rw [if_pos hv2] at h
                exact ih _ _ _ h
              · rw [if_neg hv2] at h
                obtain ⟨a, _, rfl⟩ := Option.map_eq_some'.mp h
                rfl
            · rw [if_neg hv1] at h
              by_cases hv2 : v2 = UNIL
              · rw [if_pos hv2] at h
                obtain ⟨a, _, rfl⟩ := Option.map_eq_some'.mp h
                rfl
              · rw [if_neg hv2] at h
                by_cases hu : suStep v1 v2 (mergeN m v1 v2) = UFAIL
                · rw [if_pos hu] at h
                  exact Option.noConfusion h
                · rw [if_neg hu] at h
                  obtain ⟨a, _, rfl⟩ := Option.map_eq_some'.mp h
                  rfl

/-- On distinct feature structures `simple_unify` is exactly
`unify_dicts` (fs.py:1476-1477). -/
theorem simple_unify_dicts (x y : UVal) (hne : x ≠ y)
    (hfx : isFS x = true) (hfy : isFS y = true) :
    simple_unify x y = unify_dicts x y := by
  simp only [simple_unify, unify_dicts, suStep, hne, if_neg, if_false, hfx,
    hfy, Bool.and_self, if_true]

/-- C1 (counterexample): the claim asserts that a feature name defined in
only one operand maps to that operand's value in the result.  The source
(fs.py:1487) reads `x.get(k, 'nil')`, so the stored value `'nil'` is
indistinguishable from an absent feature: unifying `[x='nil']` with the
empty structure *drops* the feature `x` instead of copying its value. -/
theorem claim_C1_counterexample :
    simple_unify nilCexA UVal.top = UVal.top ∧
    alookup nilCexA "x" = some (UVal.atom "nil") ∧
    alookup (simple_unify nilCexA UVal.top) "x" = none := by decide

/-- C1 (amended): `simple_unify(a, b)` returns `a` when `a == b`; when
both operands are (distinct) feature structures it either fails — in
which case some feature name carries two non-`'nil'` values whose
recursive unification is `'fail'` — or returns a structure that maps
every feature name to the spec's table `specUnifyAt` (both define it:
the recursive unification; only one defines it: that operand's value),
*amended* so that a stored value equal to the reserved string `'nil'`
counts as absent; any other combination of operands fails.  The spec's
worked scenario `[tense=past, subj=[num=sg]] ⊓ [tense=past,
subj=[gen=fem]] = [tense=past, subj=[num=sg, gen=fem]]` holds. -/
theorem claim_C1_amended (x y : UVal)
    (hfx : isFS x = true) (hfy : isFS y = true)
    (hwx : wfU x = true) (hwy : wfU y = true) :
    (x = y → simple_unify x y = x) ∧
    (x ≠ y →
      (isFS (simple_unify x y) = true ∧
        (∀ key, alookup (simple_unify x y) key =
          specUnifyAt (alookup x key) (alookup y key)) ∧
        (∀ key vx vy, alookup x key = some vx → alookup y key = some vy →
          vx ≠ UNIL → vy ≠ UNIL → simple_unify vx vy ≠ UFAIL))
      ∨ (simple_unify x y = UFAIL ∧
          ∃ key vx vy, alookup x key = some vx ∧ alookup y key = some vy ∧
            vx ≠ UNIL ∧ vy ≠ UNIL ∧ simple_unify vx vy = UFAIL)) ∧
    (∀ u v : UVal, u ≠ v → (u.isFS && v.isFS) = false →
      simple_unify u v = UFAIL) ∧
    simple_unify scenTenseA scenTenseB = scenTenseAB := by
  refine ⟨?_, ?_, ?_, ?_⟩
  · intro he; subst he; simp [simple_unify, suStep]
  · intro hne
    have hd := simple_unify_dicts x y hne hfx hfy
    have H := mergeN_spec (usize x + usize y) x y le_rfl hfx hfy hwx hwy
    cases hm : mergeN (usize x + usize y) x y with
    | some r =>
        rw [hm] at H
        left
        have hr : simple_unify x y = r := by rw [hd]; simp [unify_dicts, hm]
        rw [hr]
        exact ⟨mergeN_isFS _ _ _ _ hm, H.1, H.2⟩
    | none =>
        rw [hm] at H
        right
        have hr : simple_unify x y = UFAIL := by
          rw [hd]; simp [unify_dicts, hm]
        exact ⟨hr, H⟩
  · intro u v hne hb
    simp [simple_unify, suStep, hne, hb]
  · decide

theorem claim_C1_witness :
    simple_unify scenTenseA scenTenseB = scenTenseAB :=
  (claim_C1_amended scenTenseA scenTenseB (by decide) (by decide) (by decide)
    (by decide)).2.2.2

/-- C2: `simple_unify` is commutative, and the `'fail'` sentinel is
absorbing: once `unify(a, b) = fail`, unifying the result with anything
yields `fail` again (a string never equals a `FeatStruct` and is not one,
so both branches of `simple_unify` return `'fail'` — except that
unifying `'fail'` with itself returns `'fail'` by the equality case). -/
theorem claim_C2_comm_fail_absorbing (a b : UVal) :
    simple_unify a b = simple_unify b a ∧
    (∀ c, simple_unify a b = UFAIL →
      simple_unify (simple_unify a b) c = UFAIL) := by
  refine ⟨simple_unify_comm a b, ?_⟩
  intro c h
  rw [h]
  exact simple_unify_fail_left c

theorem claim_C2_witness :
    simple_unify (UVal.fcons "t" (UVal.atom "a") UVal.top)
        (UVal.fcons "t" (UVal.atom "b") UVal.top) =
      simple_unify (UVal.fcons "t" (UVal.atom "b") UVal.top)
        (UVal.fcons "t" (UVal.atom "a") UVal.top) ∧
    simple_unify
      (simple_unify (UVal.fcons "t" (UVal.atom "a") UVal.top)
        (UVal.fcons "t" (UVal.atom "b") UVal.top)) scenTenseA = UFAIL := by
  have h := claim_C2_comm_fail_absorbing
    (UVal.fcons "t" (UVal.atom "a") UVal.top)
    (UVal.fcons "t" (UVal.atom "b") UVal.top)
  exact ⟨h.1, h.2 scenTenseA (by decide)⟩

/-- Merging a `'nil'`-free chain with `TOP` copies the chain. -/
theorem mergeN_top_right : ∀ (n : Nat) (f : UVal), usize f + 1 ≤ n →
    isFS f = true → wfU f = true → noTopNil f = true →
    mergeN n f UVal.top = some f := by
  intro n
  induction n with
  | zero => intro f h _ _ _; have := usize_pos f; omega
  | succ m ih =>
    intro f h hf hw hn
    match f with
    | .atom a => simp [UVal.isFS] at hf
    | .top => simp [mergeN, mergeBody]
    | .fcons k v r =>
        obtain ⟨hwv, hwr, hfr, _⟩ := wfU_fcons hw
        simp only [noTopNil, Bool.and_eq_true, decide_eq_true_eq] at hn
        have hp := usize_pos v
        simp only [UVal.usize] at h
        have hr : usize r + 1 ≤ m := by omega
        simp only [mergeN, mergeBody, if_neg hn.1,
          ih r hr hfr hwr hn.2, Option.map_some']

/-- Merging `TOP` with a `'nil'`-free chain copies the chain. -/
theorem mergeN_top_left : ∀ (n : Nat) (f : UVal), usize f + 1 ≤ n →
    isFS f = true → wfU f = true → noTopNil f = true →
    mergeN n UVal.top f = some f := by
  intro n f h hf hw hn
  rw [mergeN_comm]
  exact mergeN_top_right n f h hf hw hn

/-- Unifying a `'nil'`-free structure with `TOP` returns the structure. -/
theorem simple_unify_top_right (f : UVal) (hf : isFS f = true)
    (hw : wfU f = true) (hn : noTopNil f = true) :
    simple_unify f UVal.top = f := by
  by_cases he : f = UVal.top
  · subst he; rfl
  · rw [simple_unify_dicts f UVal.top he hf rfl]
    unfold unify_dicts
    rw [mergeN_top_right (usize f + usize UVal.top) f
      (by simp [UVal.usize]) hf hw hn]

/-- Unifying `TOP` with a `'nil'`-free structure returns the structure. -/
theorem simple_unify_top_left (f : UVal) (hf : isFS f = true)
    (hw : wfU f = true) (hn : noTopNil f = true) :
    simple_unify UVal.top f = f := by
  rw [simple_unify_comm]
  exact simple_unify_top_right f hf hw hn

theorem flatten_map_singleton (l : List UVal) (g : UVal → UVal) :
    (l.map (fun f => [g f])).flatten = l.map g := by
  induction l with
  | nil => rfl
  | cons a rest ih => simp [ih]

theorem cross_single_right (x : List UVal) (t : UVal) :
    crossUnify x [t] = x.map (fun f => simple_unify f t) := by
  unfold crossUnify
  have h1 : (fun f1 => [t].map (fun f2 => simple_unify f1 f2)) =
      fun f1 => [simple_unify f1 t] := by funext f1; rfl
  rw [h1, flatten_map_singleton]

theorem cross_single_left (y : List UVal) (t : UVal) :
    crossUnify [t] y = y.map (fun f => simple_unify t f) := by
  simp [crossUnify]

/-- C3: `FSSet.unify` unifies every pair of the cross product, discards
the `'fail'` results, and collapses to `{TOP}` when every pairwise
result equals `TOP` (membership stated up to set semantics, since Python
set iteration order is unspecified). -/
theorem claim_C3_fsset_unify (x y : List UVal) (_hx : x ≠ []) (_hy : y ≠ []) :
    (every (fun u => decide (u = TOPfs)) (crossUnify x y) = true →
      fssUnify x y = TOPFSS) ∧
    (every (fun u => decide (u = TOPfs)) (crossUnify x y) = false →
      ∀ u, u ∈ fssUnify x y ↔
        u ≠ UFAIL ∧ ∃ f1 ∈ x, ∃ f2 ∈ y, u = simple_unify f1 f2) := by
  constructor
  · intro h
    unfold fssUnify
    rw [if_pos h]
  · intro h u
    unfold fssUnify
    rw [if_neg (by rw [h]; exact Bool.false_ne_true)]
    simp only [List.mem_dedup, List.mem_filter, decide_eq_true_eq]
    refine Iff.trans and_comm (and_congr_right ?_)
    intro _
    simp only [crossUnify, List.mem_flatten, List.mem_map]
    constructor
    · rintro ⟨l, ⟨f1, hf1, rfl⟩, hul⟩
      obtain ⟨f2, hf2, rfl⟩ := List.mem_map.mp hul
      exact ⟨f1, hf1, f2, hf2, rfl⟩
    · rintro ⟨f1, hf1, f2, hf2, rfl⟩
      exact ⟨y.map (fun f2 => simple_unify f1 f2), ⟨f1, hf1, rfl⟩,
        List.mem_map.mpr ⟨f2, hf2, rfl⟩⟩

/-- C4 (counterexample): `{TOP}` fails to be a (two-sided) multiplicative
identity on two perfectly legal `FSSet`s: the empty set (the result is
`{TOP}`, not `∅`, because the vacuous "everything is `TOP`" test fires),
and the singleton `{[x='nil']}` (whose `'nil'`-valued feature is dropped
by `unify_dicts`, so the only pairwise result is `TOP` and the set
collapses to `{TOP}`). -/
theorem claim_C4_counterexample :
    fssUnify [nilCexA] TOPFSS = TOPFSS ∧
    fssUnify uniZero TOPFSS = TOPFSS ∧
    TOPFSS ≠ [nilCexA] ∧ TOPFSS ≠ uniZero := by decide

/-- C4 (amended): `{TOP}` is a two-sided identity of `FSSet.unify` on
every *non-empty, duplicate-free* `FSSet` of feature structures *none of
whose top-level features stores the reserved string `'nil'`*. -/
theorem claim_C4_amended (x : List UVal) (hne : x ≠ []) (hnd : x.Nodup)
    (hmem : ∀ f ∈ x, isFS f = true ∧ wfU f = true ∧ noTopNil f = true) :
    fssUnify x TOPFSS = x ∧ fssUnify TOPFSS x = x := by
  have hcr : crossUnify x TOPFSS = x := by
    rw [show TOPFSS = [TOPfs] from rfl, cross_single_right]
    rw [show (x.map fun f => simple_unify f TOPfs) = x.map id from ?_]
    · exact List.map_id x
    · apply List.map_congr_left
      intro a ha
      obtain ⟨hf, hw, hn⟩ := hmem a ha
      exact simple_unify_top_right a hf hw hn
  have hcl : crossUnify TOPFSS x = x := by
    rw [show TOPFSS = [TOPfs] from rfl, cross_single_left]
    rw [show (x.map fun f => simple_unify TOPfs f) = x.map id from ?_]
    · exact List.map_id x
    · apply List.map_congr_left
      intro a ha
      obtain ⟨hf, hw, hn⟩ := hmem a ha
      exact simple_unify_top_left a hf hw hn
  have hxform : every (fun u => decide (u = TOPfs)) x = true → x = TOPFSS := by
    intro hall
    simp only [every, List.all_eq_true, decide_eq_true_eq] at hall
    cases x with
    | nil => exact absurd rfl hne
    | cons a rest =>
        have ha := hall a (List.mem_cons_self a rest)
        subst ha
        cases rest with
        | nil => rfl
        | cons b r2 =>
            have hb := hall b (List.mem_cons_of_mem _ (List.mem_cons_self b r2))
            subst hb
            exact absurd (List.mem_cons_self TOPfs r2) (List.nodup_cons.mp hnd).1
  have hfilter : ∀ u ∈ x, decide (u ≠ UFAIL) = true := by
    intro u hu
    obtain ⟨hf, _, _⟩ := hmem u hu
    simp only [decide_eq_true_eq]
    intro he
    rw [he] at hf
    simp [UVal.isFS, UVal.UFAIL] at hf
  constructor
  · unfold fssUnify
    rw [hcr]
    by_cases hall : every (fun u => decide (u = TOPfs)) x = true
    · rw [if_pos hall, hxform hall]
    · rw [if_neg hall, List.filter_eq_self.mpr hfilter,
        List.dedup_eq_self.mpr hnd]
  · unfold fssUnify
    rw [hcl]
    by_cases hall : every (fun u => decide (u = TOPfs)) x = true
    · rw [if_pos hall, hxform hall]
    · rw [if_neg hall, List.filter_eq_self.mpr hfilter,
        List.dedup_eq_self.mpr hnd]

theorem claim_C4_witness :
    fssUnify [scenTenseA] TOPFSS = [scenTenseA] ∧
    fssUnify TOPFSS [scenTenseA] = [scenTenseA] :=
  claim_C4_amended [scenTenseA] (by decide) (by decide)
    (by intro f hf; simp only [List.mem_singleton] at hf; subst hf
        exact ⟨by decide, by decide, by decide⟩)

/-- C10: unifying the unification semiring's zero (the empty set) with
any `FSSet` returns the multiplicative identity `{TOP}`: the cross
product over an empty operand is empty, so the "every result is `TOP`"
test is vacuously true and the collapse branch fires; the zero is
therefore not absorbing for the semiring multiplication. -/
theorem claim_C10_zero_not_absorbing (y : List UVal) :
    crossUnify uniZero y = [] ∧ fssUnify uniZero y = uniOne ∧
    uniOne ≠ uniZero := ⟨rfl, rfl, by decide⟩

theorem claim_C3_witness :
    fssUnify [TOPfs] [TOPfs] = TOPFSS ∧
    UVal.UFAIL ∉ fssUnify [UVal.fcons "t" (UVal.atom "a") UVal.top]
      [UVal.fcons "t" (UVal.atom "b") UVal.top] := by
  constructor
  · exact (claim_C3_fsset_unify [TOPfs] [TOPfs] (by decide) (by decide)).1
      (by decide)
  · intro hmem
    have h := (claim_C3_fsset_unify
      [UVal.fcons "t" (UVal.atom "a") UVal.top]
      [UVal.fcons "t" (UVal.atom "b") UVal.top]
      (by decide) (by decide)).2 (by decide) UVal.UFAIL
    exact (h.mp hmem).1 rfl

/-- C5 (counterexample): the claim says `unfreeze()` returns a structure
distinct from `x` regardless of whether `x` is frozen; but on an
unfrozen structure the source returns `self` itself (fs.py:655-658), not
a copy. -/
theorem claim_C5_counterexample :
    fs_unfreeze ⟨nilCexA, false⟩ = UnfreezeRes.sameObject ∧
    ∀ y : PyFS, UnfreezeRes.sameObject ≠ UnfreezeRes.newCopy y := by
  constructor
  · rfl
  · intro y h
    exact UnfreezeRes.noConfusion h

/-- C5 (amended): `unfreeze()` returns a deep, mutable copy — a fresh
object with equal contents and the frozen flag cleared — when `x` is
frozen; when `x` is not frozen it returns `x` itself (already mutable),
not a copy. -/
theorem claim_C5_amended (x : PyFS) :
    (x.frozen = true → fs_unfreeze x = .newCopy ⟨x.feats, false⟩ ∧
      (fs_copy x).frozen = false ∧ (fs_copy x).feats = x.feats) ∧
    (x.frozen = false → fs_unfreeze x = .sameObject) := by
  constructor
  · intro h
    exact ⟨by simp [fs_unfreeze, fs_copy, h], rfl, rfl⟩
  · intro h
    simp [fs_unfreeze, h]

theorem claim_C5_witness :
    fs_unfreeze ⟨scenTenseA, true⟩ = .newCopy ⟨scenTenseA, false⟩ ∧
    fs_unfreeze ⟨scenTenseB, false⟩ = .sameObject :=
  ⟨((claim_C5_amended ⟨scenTenseA, true⟩).1 rfl).1,
   (claim_C5_amended ⟨scenTenseB, false⟩).2 rfl⟩

/-- C6: every mutating method of a frozen `FeatStruct` raises
`ValueError(_FROZEN_ERROR)` — an exception, distinct from the `'fail'`
unification sentinel (which is an ordinary returned string, not an
exception; their texts differ too) — and leaves the receiver unchanged
(each mutator checks `self._frozen` before touching anything,
fs.py:407-470). -/
theorem claim_C6_frozen_mutation (x : PyFS) (k : String) (v : UVal)
    (items : List (String × UVal)) (h : x.frozen = true) :
    fs_setitem x k v = (some (.valueError FROZEN_ERROR), x) ∧
    fs_delitem x k = (some (.valueError FROZEN_ERROR), x) ∧
    fs_clear x = (some (.valueError FROZEN_ERROR), x) ∧
    fs_update x items = (some (.valueError FROZEN_ERROR), x) ∧
    FROZEN_ERROR ≠ "fail" := by
  refine ⟨?_, ?_, ?_, ?_, by decide⟩ <;>
    simp [fs_setitem, fs_delitem, fs_clear, fs_update, h]

theorem claim_C6_witness :
    fs_setitem ⟨scenTenseA, true⟩ "tense" (UVal.atom "pres") =
      (some (.valueError FROZEN_ERROR), ⟨scenTenseA, true⟩) ∧
    fs_clear ⟨scenTenseA, true⟩ =
      (some (.valueError FROZEN_ERROR), ⟨scenTenseA, true⟩) :=
  ⟨(claim_C6_frozen_mutation ⟨scenTenseA, true⟩ "tense" (UVal.atom "pres")
      [] rfl).1,
   (claim_C6_frozen_mutation ⟨scenTenseA, true⟩ "tense" (UVal.atom "pres")
      [] rfl).2.2.1⟩

/-- C9: on a cascade of length exactly one, `compose` returns the single
element itself for every combination of arguments — `begin`, `end`,
`first`, `last` and `subcasc` are ignored, and an unknown `subcasc`
label raises nothing — whereas on a cascade of length at least two a
truthy unknown `subcasc` label raises `ValueError`. -/
theorem claim_C9_compose_single (c : CascState) (e : CascEntry)
    (h1 : c.fsts = [e]) :
    (∀ (bg : Int) (end_ : Option Int) (first last : Option CascEntry)
        (sub : Option String),
      cascCompose c bg end_ first last sub = .single e) ∧
    (∀ (c2 : CascState) (s : String) (bg : Int) (end_ : Option Int)
        (first last : Option CascEntry),
      2 ≤ c2.fsts.length → s ≠ "" → c2.cascades.lookup s = none →
      cascCompose c2 bg end_ first last (some s) =
        .error ("'" ++ s ++ "' is not a valid subscascade label")) := by
  constructor
  · intro bg end_ first last sub
    simp [cascCompose, h1]
  · intro c2 s bg end_ first last hlen hs hnone
    match hf : c2.fsts with
    | [] => rw [hf] at hlen; simp at hlen
    | [a] => rw [hf] at hlen; simp at hlen
    | a :: b :: t =>
        unfold cascCompose
        rw [hf]
        simp only [if_neg hs, hnone]

theorem claim_C9_witness :
    cascCompose ⟨"lab", .unification, [], [], [], [CascEntry.net "a.fst"]⟩
      3 (some 7) (some (CascEntry.net "x.fst")) none (some "nosuch") =
      .single (CascEntry.net "a.fst") ∧
    cascCompose ⟨"lab", .unification, [], [], [],
        [CascEntry.net "a.fst", CascEntry.net "b.fst"]⟩
      0 none none none (some "nosuch") =
      .error "'nosuch' is not a valid subscascade label" := by
  have h := claim_C9_compose_single
    ⟨"lab", .unification, [], [], [], [CascEntry.net "a.fst"]⟩
    (CascEntry.net "a.fst") rfl
  exact ⟨h.1 3 (some 7) (some (CascEntry.net "x.fst")) none (some "nosuch"),
    h.2 ⟨"lab", .unification, [], [], [],
      [CascEntry.net "a.fst", CascEntry.net "b.fst"]⟩
      "nosuch" 0 none none none (by decide) (by decide) rfl⟩

theorem cascParse_append (p : CascParams) (st : CascState)
    (pre rest : List String) :
    cascParse p st (pre ++ rest) =
      match cascParse p st pre with
      | .ok st1 => cascParse p st1 rest
      | .error e => .error e := by
  induction pre generalizing st with
  | nil => rfl
  | cons l ls ih =>
      simp only [List.cons_append, cascParse]
      cases cascLine p st l with
      | error e => rfl
      | ok st1 => exact ih st1

theorem mtaxParse_append (st : MtaxState) (pre rest : List String) :
    mtaxParse st (pre ++ rest) =
      match mtaxParse st pre with
      | .ok st1 => mtaxParse st1 rest
      | .error e => .error e := by
  induction pre generalizing st with
  | nil => rfl
  | cons l ls ih =>
      simp only [List.cons_append, mtaxParse]
      cases mtaxLine st l with
      | error e => rfl
      | ok st1 => exact ih st1

/-- C7: in both `FSTCascade.parse` and `MTax.parse`, a line that is
non-empty after comment stripping (and, for mtax, that is not a `;`
continuation) and matches none of the recognized line forms raises
`ValueError` whose message contains the offending line text, aborting
the parse of the whole file — no such line is silently skipped.  (For
mtax the tested text is the continuation buffer plus the current line,
of which the current line is a suffix.) -/
theorem claim_C7_bad_line_fatal
    (p : CascParams) (cst : CascState) (craw : String)
    (mst : MtaxState) (mraw : String)
    (hc0 : pyStrip (takeUntilHash craw.toList) ≠ [])
    (hc1 : matchWeighting (pyStrip (takeUntilHash craw.toList)) = none)
    (hc2 : matchSubcasc (pyStrip (takeUntilHash craw.toList)) = none)
    (hc3 : matchSS (pyStrip (takeUntilHash craw.toList)) = none)
    (hc4 : matchFst (pyStrip (takeUntilHash craw.toList)) = none)
    (hc5 : matchLex (pyStrip (takeUntilHash craw.toList)) = none)
    (hm0 : pyRstrip (takeUntilHash mraw.toList) ≠ [])
    (hm1 : (pyRstrip (takeUntilHash mraw.toList)).getLast? ≠ some ';')
    (hm2 : matchState
      (mst.pending.toList ++ pyRstrip (takeUntilHash mraw.toList)) = none)
    (hm3 : matchLexM
      (mst.pending.toList ++ pyRstrip (takeUntilHash mraw.toList)) = none)
    (hm4 : matchFsLine
      (mst.pending.toList ++ pyRstrip (takeUntilHash mraw.toList)) = none)
    (hm5 : matchPath
      (mst.pending.toList ++ pyRstrip (takeUntilHash mraw.toList)) = none)
    (hm6 : matchShortcutFs
      (mst.pending.toList ++ pyRstrip (takeUntilHash mraw.toList)) = none)
    (hm7 : matchShortcutLex
      (mst.pending.toList ++ pyRstrip (takeUntilHash mraw.toList)) = none)
    (hm8 : matchPathNoFs
      (mst.pending.toList ++ pyRstrip (takeUntilHash mraw.toList)) = none) :
    (cascLine p cst craw =
      .error (badLineMsg (pyStrip (takeUntilHash craw.toList)))) ∧
    (pyStrip (takeUntilHash craw.toList)) <:+:
      (badLineMsg (pyStrip (takeUntilHash craw.toList))).toList ∧
    (∀ pre post st0, cascParse p st0 pre = .ok cst →
      cascParse p st0 (pre ++ craw :: post) =
        .error (badLineMsg (pyStrip (takeUntilHash craw.toList)))) ∧
    (mtaxLine mst mraw = .error (badLineMsg
      (mst.pending.toList ++ pyRstrip (takeUntilHash mraw.toList)))) ∧
    (pyRstrip (takeUntilHash mraw.toList)) <:+: (badLineMsg
      (mst.pending.toList ++ pyRstrip (takeUntilHash mraw.toList))).toList ∧
    (∀ pre post st0, mtaxParse st0 pre = .ok mst →
      mtaxParse st0 (pre ++ mraw :: post) = .error (badLineMsg
        (mst.pending.toList ++ pyRstrip (takeUntilHash mraw.toList)))) := by
  have hcerr : cascLine p cst craw =
      .error (badLineMsg (pyStrip (takeUntilHash craw.toList))) := by
    simp only [cascLine]
    rw [if_neg hc0, hc1, hc2, hc3, hc4, hc5]
  have hmerr : mtaxLine mst mraw = .error (badLineMsg
      (mst.pending.toList ++ pyRstrip (takeUntilHash mraw.toList))) := by
    simp only [mtaxLine]
    rw [if_neg hm0, if_neg hm1, hm2, hm3, hm4, hm5, hm6, hm7, hm8]
  refine ⟨hcerr, ?_, ?_, hmerr, ?_, ?_⟩
  · exact ⟨"bad line: '".toList, ['\''], rfl⟩
  · intro pre post st0 hok
    rw [cascParse_append, hok]
    simp only [cascParse, hcerr]
  · exact ⟨"bad line: '".toList ++ mst.pending.toList, ['\''],
      by simp [badLineMsg]⟩
  · intro pre post st0 hok
    rw [mtaxParse_append, hok]
    simp only [mtaxParse, hmerr]

theorem claim_C7_witness :
    cascLine ⟨none, true⟩ ⟨"c", .unification, [], [], [], []⟩ "foo bar !" =
      .error (badLineMsg "foo bar !".toList) ∧
    cascParse ⟨none, true⟩ ⟨"c", .unification, [], [], [], []⟩
      ["foo bar !", ">x<"] = .error (badLineMsg "foo bar !".toList) ∧
    mtaxLine ⟨[], none, 0, "", [], none⟩ "foo bar !" =
      .error (badLineMsg "foo bar !".toList) ∧
    mtaxParse ⟨[], none, 0, "", [], none⟩ ["foo bar !", "$ s0"] =
      .error (badLineMsg "foo bar !".toList) := by
  have h := claim_C7_bad_line_fatal ⟨none, true⟩
    ⟨"c", .unification, [], [], [], []⟩ "foo bar !"
    ⟨[], none, 0, "", [], none⟩ "foo bar !"
    (by decide) (by decide) (by decide) (by decide) (by decide) (by decide)
    (by decide) (by decide) (by decide) (by decide) (by decide) (by decide)
    (by decide) (by decide) (by decide)
  exact ⟨h.1,
    h.2.2.1 [] [">x<"] ⟨"c", .unification, [], [], [], []⟩ rfl,
    h.2.2.2.1,
    h.2.2.2.2.2 [] ["$ s0"] ⟨[], none, 0, "", [], none⟩ rfl⟩

/-- C8: lazy loading in `FSTCascade.parse`.  (1) A
`cascade lab = {i, j, ...}` line whose label equals the requested
`subcasc` records the index list and makes it the active selection.
(2)/(3) With a non-empty active selection, a subsequent `>label<` or
`+label+` line (with `create_networks`) loads the component
(`FST.load` of `label + '.fst'` / `'.lex'`) exactly when the current
cascade position is in the selection, and otherwise appends the
placeholder string `'FST' + str(position)`.  (4) No line other than a
subcascade line ever changes the active selection, so a selection
declared earlier stays active for every subsequent FST/lexicon line. -/
theorem claim_C8_lazy_loading (p : CascParams) :
    (∀ (st : CascState) (raw : String) (lab inds : List Char)
        (idxs : List Int),
      pyStrip (takeUntilHash raw.toList) ≠ [] →
      matchWeighting (pyStrip (takeUntilHash raw.toList)) = none →
      matchSubcasc (pyStrip (takeUntilHash raw.toList)) = some (lab, inds) →
      parseIndices inds = some idxs →
      p.subcasc = some (String.mk lab) →
      cascLine p st raw = .ok {st with
        cascades := aupdate st.cascades (String.mk lab) idxs,
        subcascIndices := idxs}) ∧
    (∀ (st : CascState) (raw : String) (lab : List Char),
      p.createNetworks = true →
      pyStrip (takeUntilHash raw.toList) ≠ [] →
      matchWeighting (pyStrip (takeUntilHash raw.toList)) = none →
      matchSubcasc (pyStrip (takeUntilHash raw.toList)) = none →
      matchSS (pyStrip (takeUntilHash raw.toList)) = none →
      matchFst (pyStrip (takeUntilHash raw.toList)) = some lab →
      st.subcascIndices ≠ [] →
      cascLine p st raw = .ok {st with fsts := st.fsts ++
        [if (st.fsts.length : Int) ∈ st.subcascIndices
         then CascEntry.net (String.mk lab ++ ".fst")
         else CascEntry.placeholder ("FST" ++ toString st.fsts.length)]}) ∧
    (∀ (st : CascState) (raw : String) (lab : List Char),
      p.createNetworks = true →
      pyStrip (takeUntilHash raw.toList) ≠ [] →
      matchWeighting (pyStrip (takeUntilHash raw.toList)) = none →
      matchSubcasc (pyStrip (takeUntilHash raw.toList)) = none →
      matchSS (pyStrip (takeUntilHash raw.toList)) = none →
      matchFst (pyStrip (takeUntilHash raw.toList)) = none →
      matchLex (pyStrip (takeUntilHash raw.toList)) = some lab →
      st.subcascIndices ≠ [] →
      cascLine p st raw = .ok {st with fsts := st.fsts ++
        [if (st.fsts.length : Int) ∈ st.subcascIndices
         then CascEntry.net (String.mk lab ++ ".lex")
         else CascEntry.placeholder ("FST" ++ toString st.fsts.length)]}) ∧
    (∀ (st st1 : CascState) (raw : String),
      matchSubcasc (pyStrip (takeUntilHash raw.toList)) = none →
      cascLine p st raw = .ok st1 →
      st1.subcascIndices = st.subcascIndices) := by
  have hsw : ∀ (st : CascState) (g : List Char),
      (setWeighting st g).subcascIndices = st.subcascIndices := by
    intro st g
    simp only [setWeighting]
    split_ifs <;> rfl
  have hadd : ∀ (st : CascState) (fn : String),
      (addFstEntry p st fn).subcascIndices = st.subcascIndices := by
    intro st fn
    simp only [addFstEntry]
    split_ifs <;> rfl
  refine ⟨?_, ?_, ?_, ?_⟩
  · intro st raw lab inds idxs h0 h1 h2 h3 h4
    simp only [cascLine]
    rw [if_neg h0]
    simp only [h1, h2, h3]
    rw [if_pos h4]
  · intro st raw lab hcn h0 h1 h2 h3 h4 hsel
    simp only [cascLine]
    rw [if_neg h0]
    simp only [h1, h2, h3, h4]
    simp only [addFstEntry, if_pos hcn, or_iff_right hsel]
  · intro st raw lab hcn h0 h1 h2 h3 h4 h5 hsel
    simp only [cascLine]
    rw [if_neg h0]
    simp only [h1, h2, h3, h4, h5]
    simp only [addFstEntry, if_pos hcn, or_iff_right hsel]
  · intro st st1 raw hsub hok
    simp only [cascLine] at hok
    by_cases he : pyStrip (takeUntilHash raw.toList) = []
    · rw [if_pos he] at hok
      cases hok
      rfl
    · rw [if_neg he] at hok
      cases hw : matchWeighting (pyStrip (takeUntilHash raw.toList)) with
      | some g =>
          simp only [hw] at hok
          cases hok
          exact hsw st g
      | none =>
          simp only [hw, hsub] at hok
          cases hss : matchSS (pyStrip (takeUntilHash raw.toList)) with
          | some pr =>
              simp only [hss] at hok
              cases hok
              rfl
          | none =>
              simp only [hss] at hok
              cases hfs : matchFst (pyStrip (takeUntilHash raw.toList)) with
              | some lab =>
                  simp only [hfs] at hok
                  cases hok
                  exact hadd st _
              | none =>
                  simp only [hfs] at hok
                  cases hlx : matchLex (pyStrip (takeUntilHash raw.toList)) with
                  | some lab =>
                      simp only [hlx] at hok
                      cases hok
                      exact hadd st _
                  | none =>
                      simp only [hlx] at hok
                      exact Except.noConfusion hok

theorem claim_C8_witness :
    cascLine ⟨some "pos", true⟩ ⟨"c", .unification, [], [], [], []⟩
      "cascade pos = \x7b0, 2\x7d" =
      .ok ⟨"c", .unification, [], [("pos", [0, 2])], [0, 2], []⟩ ∧
    cascLine ⟨some "pos", true⟩ ⟨"c", .unification, [], [("pos", [0, 2])],
        [0, 2], []⟩ ">first<" =
      .ok ⟨"c", .unification, [], [("pos", [0, 2])], [0, 2],
        [CascEntry.net "first.fst"]⟩ ∧
    cascLine ⟨some "pos", true⟩ ⟨"c", .unification, [], [("pos", [0, 2])],
        [0, 2], [CascEntry.net "first.fst"]⟩ "+second+" =
      .ok ⟨"c", .unification, [], [("pos", [0, 2])], [0, 2],
        [CascEntry.net "first.fst", CascEntry.placeholder "FST1"]⟩ := by
  have h := claim_C8_lazy_loading ⟨some "pos", true⟩
  refine ⟨?_, ?_, ?_⟩
  · have h1 := h.1 ⟨"c", .unification, [], [], [], []⟩
      "cascade pos = \x7b0, 2\x7d" "pos".toList "0, 2".toList [0, 2]
      (by decide) (by decide) (by decide) (by decide) (by decide)
    simpa using h1
  · have h2 := h.2.1 ⟨"c", .unification, [], [("pos", [0, 2])], [0, 2], []⟩
      ">first<" "first".toList rfl (by decide) (by decide) (by decide)
      (by decide) (by decide) (by decide)
    simpa using h2
  · have h3 := h.2.2.1 ⟨"c", .unification, [], [("pos", [0, 2])], [0, 2],
      [CascEntry.net "first.fst"]⟩ "+second+" "second".toList rfl
      (by decide) (by decide) (by decide) (by decide) (by decide)
      (by decide) (by decide)
    simpa using h3

end HornMorpho
